import Mathlib

/-!
Verification of the style-set evaluation engine of harp.gl
(`@here/harp-datasource-protocol/lib/StyleSetEvaluator.ts`).

The development shallowly embeds the evaluator: the style tree, the
render-order assignment performed by the `StyleSetEvaluator` constructor
(`computeDefaultRenderOrder`), the rule-matching walk (`getMatchingTechniques`
and `processStyle`), the attribute partition (`checkStyleDynamicAttributes`),
technique creation and caching (`createTechnique` and the per-rule caches),
and `makeDecodedTechnique`.

Modelling conventions:
- JavaScript numbers are modelled as `Int` (the evaluator only performs
  integer-like arithmetic on render orders; claim-relevant behaviour does not
  depend on float semantics).
- Mutable state (`m_techniques`, `m_renderOrderBiasGroups`, the per-rule
  `_dynamicTechniques` and `_staticTechnique` caches) is threaded explicitly.
  The per-rule caches are keyed by the rule's `_styleSetIndex`; the source
  attaches them to the (unique) rule object and its cache key already starts
  with `_styleSetIndex`, and construction assigns distinct `_styleSetIndex`
  values to distinct leaves, so a single table keyed by that index is
  equivalent.
- `logger` output is modelled as an explicit list of messages.
- Semantically transparent optimisations of the source are omitted: the
  per-pass expression-result cache `m_cachedResults` (evaluation is a pure
  function of expression and environment here), expression interning in
  `ExprPool` (structural equality of Lean values), the lazy `_whenExpr`
  compilation cache and the memoisation of `checkStyleDynamicAttributes`
  (both deterministic, recomputed on demand here).
- The expression engine (`Expr.ts`, not under the provided sources) is
  modelled from the spec with a small operator set sufficient to exhibit the
  behaviours the claims depend on: literals, attribute access, equality, and
  a typed numeric cast whose evaluation can fail with an evaluation error.
  Parsing (`Expr.fromJSON`) can fail with a parse error on an unknown
  operator. Attribute values written as expressions are carried in already
  compiled form; the string form of `when` compiles into the same expression
  type and is omitted.
-/

/-- Runtime values of the expression language: string, number, boolean,
null, and the JavaScript `undefined` produced by looking up a missing
attribute. -/
inductive Value where
  | null
  | undef
  | boolV (b : Bool)
  | num (n : Int)
  | str (s : String)
deriving DecidableEq, Repr

/-- JavaScript truthiness of a value, as used by the `when` check
`if (!style._whenExpr.evaluate(env))`. -/
def truthy : Value → Bool
  | .null => false
  | .undef => false
  | .boolV b => b
  | .num n => n != 0
  | .str s => s != ""

/-- Feature attribute environment (`MapEnv`): a mapping from attribute name
to value, owned by the caller. -/
abbrev MapEnv := List (String × Value)

/-- First-match association-list lookup, the behaviour of `Map.get` /
object-property access for the explicit state tables of this model. -/
def lookupAssoc {α β : Type} [DecidableEq α] : List (α × β) → α → Option β
  | [], _ => none
  | (k, v) :: rest, k' => if k = k' then some v else lookupAssoc rest k'

/-- Replace-or-append association-list update, the behaviour of `Map.set`. -/
def setAssoc {α β : Type} [DecidableEq α] : List (α × β) → α → β → List (α × β)
  | [], k, v => [(k, v)]
  | (k', v') :: rest, k, v =>
    if k' = k then (k, v) :: rest else (k', v') :: setAssoc rest k v

/-- Errors of the expression engine: parse errors (malformed expression,
unknown operator) and evaluation errors (for example a failed typed cast). -/
inductive StyleError where
  | parseError (msg : String)
  | evalError (msg : String)
deriving DecidableEq, Repr

/-- Compiled expressions. Modelled from the spec: `Expr.ts` is not among the
provided sources; this is the minimal operator set needed by the claims
(literal, variable reference, comparison, typed cast). -/
inductive Expr where
  | literal (v : Value)
  | getAttr (name : String)
  | eqOp (a b : Expr)
  | numberCast (a : Expr)
deriving DecidableEq, Repr

/-- Expression evaluation against an environment. Modelled from the spec:
literal and variable lookups never raise; a missing attribute yields
`undefined`; the typed cast raises an evaluation error on a non-number
operand. -/
def Expr.evaluate : Expr → MapEnv → Except StyleError Value
  | .literal v, _ => .ok v
  | .getAttr n, env => .ok ((lookupAssoc env n).getD .undef)
  | .eqOp a b, env => do
    let va ← a.evaluate env
    let vb ← b.evaluate env
    .ok (.boolV (va == vb))
  | .numberCast a, env => do
    let va ← a.evaluate env
    match va with
    | .num n => .ok (.num n)
    | _ => .error (.evalError "cast to number failed")

/-- JSON form of a `when` expression (the array syntax). The `unknownOp`
constructor stands for an array whose operator name is not recognised. -/
inductive JsonExpr where
  | literalValue (v : Value)
  | getOp (name : String)
  | eqJson (a b : JsonExpr)
  | numberOp (a : JsonExpr)
  | unknownOp (name : String)
deriving DecidableEq, Repr

/-- Compilation of the JSON expression form (`Expr.fromJSON`). Modelled from
the spec: fails with a parse error on an unknown operator name. -/
def Expr.fromJSON : JsonExpr → Except StyleError Expr
  | .literalValue v => .ok (.literal v)
  | .getOp n => .ok (.getAttr n)
  | .eqJson a b => do
    let ea ← Expr.fromJSON a
    let eb ← Expr.fromJSON b
    .ok (.eqOp ea eb)
  | .numberOp a => do
    let ea ← Expr.fromJSON a
    .ok (.numberCast ea)
  | .unknownOp n => .error (.parseError ("unknown operator " ++ n))

/-- Declared form of an interpolated property (`InterpolatedPropertyDefinition`).
Modelled from the spec: a list of control points; the internals are not
claim-relevant, only the classification of such attributes. -/
structure InterpolatedPropertyDef where
  zoomLevels : List Int
  values : List Value
deriving DecidableEq, Repr

/-- Created interpolated property (`InterpolatedProperty`). -/
structure InterpolatedProperty where
  zoomLevels : List Int
  values : List Value
deriving DecidableEq, Repr

/-- Creation of an interpolated property (`createInterpolatedProperty`).
Modelled from the spec: returns nothing for a malformed definition, in which
case the attribute is silently dropped. -/
def createInterpolatedProperty (d : InterpolatedPropertyDef) :
    Option InterpolatedProperty :=
  if d.zoomLevels.length = d.values.length ∧ d.zoomLevels ≠ [] then
    some ⟨d.zoomLevels, d.values⟩
  else
    none

/-- Evaluation scope of a technique attribute (`TechniqueAttrType`).
`Static` stands for the default of the registry for attributes without
declared dynamic support. -/
inductive TechniqueAttrType where
  | Static
  | Feature
  | Technique
  | DynamicMaterial
deriving DecidableEq, Repr

/-- A technique descriptor: map from attribute name to scope. -/
abbrev TechniqueDescriptor := List (String × TechniqueAttrType)

/-- Scope lookup (`techniqueAttrType`). Modelled from the spec: attributes
absent from a descriptor default to no dynamic support. -/
def techniqueAttrType (attrName : String) (descriptor : TechniqueDescriptor) :
    TechniqueAttrType :=
  (lookupAssoc descriptor attrName).getD .Static

/-- The empty descriptor used for unknown technique kinds
(`emptyTechniqueDescriptor`). -/
def emptyTechniqueDescriptor : TechniqueDescriptor := []

/-- Base descriptor shared by all techniques (`baseTechniqueParamsDescriptor`
of `Techniques.ts`); the renderer scope of that file corresponds to
`DynamicMaterial` here. -/
def baseTechniqueParamsDescriptor : TechniqueDescriptor :=
  [("renderOrder", .Technique), ("renderOrderOffset", .Technique),
   ("enabled", .Technique), ("kind", .Technique), ("transient", .Technique),
   ("fadeFar", .DynamicMaterial), ("fadeNear", .DynamicMaterial)]

/-- Descriptor of the `line` technique (`lineTechniqueDescriptor` of
`Techniques.ts`): `lineWidth` is feature-scoped, colour attributes are
renderer-scoped. Written with the base descriptor merged in. -/
def lineTechniqueDescriptor : TechniqueDescriptor :=
  baseTechniqueParamsDescriptor ++
  [("color", .DynamicMaterial), ("opacity", .DynamicMaterial),
   ("transparent", .DynamicMaterial), ("lineWidth", .Feature)]

/-- Descriptor of the `circles` technique (`circlesTechniquePropTypes` of
`Techniques.ts`): `opacity` is technique-scoped, `color` renderer-scoped. -/
def circlesTechniquePropTypes : TechniqueDescriptor :=
  baseTechniqueParamsDescriptor ++
  [("texture", .Technique), ("enablePicking", .Technique),
   ("color", .DynamicMaterial), ("transparent", .DynamicMaterial),
   ("opacity", .Technique)]

/-- The technique descriptor registry (`techniqueDescriptors`), restricted to
the technique kinds exercised here. -/
def techniqueDescriptors (name : String) : Option TechniqueDescriptor :=
  if name = "line" then some lineTechniqueDescriptor
  else if name = "circles" then some circlesTechniquePropTypes
  else none

/-- An attribute value as declared in a style: a plain JSON value, an
expression (carried in compiled form), or an interpolated-property
definition. -/
inductive AttrDecl where
  | value (v : Value)
  | json (e : Expr)
  | interpolation (d : InterpolatedPropertyDef)
deriving DecidableEq, Repr

/-- A dynamic attribute entry: an expression or a created interpolated
property (`Expr | InterpolatedProperty`). -/
inductive DynVal where
  | expr (e : Expr)
  | interp (p : InterpolatedProperty)
deriving DecidableEq, Repr

/-- A value stored on a produced technique object. -/
inductive TechValue where
  | value (v : Value)
  | expr (e : Expr)
  | interp (p : InterpolatedProperty)
deriving DecidableEq, Repr

/-- Whether a technique attribute value is an `Expr` instance
(`attrValue instanceof Expr`). -/
def TechValue.isExpr : TechValue → Bool
  | .expr _ => true
  | _ => false

/-- Non-recursive fields of a style rule (`Style & StyleSelector` plus the
internal `_styleSetIndex` slot, which is `none` before construction).
`when` is the JSON form of the condition; `final`, `renderOrder`,
`renderOrderOffset`, `labelProperty`, `secondaryRenderOrder`,
`renderOrderBiasGroup` and `renderOrderBiasRange` mirror the declaration
fields read by the evaluator; `attr` is the attribute table in declaration
order. -/
structure StyleData where
  when : Option JsonExpr
  technique : Option String
  final : Option Bool
  renderOrder : Option Int
  renderOrderOffset : Option Int
  labelProperty : Option Value
  secondaryRenderOrder : Option Value
  renderOrderBiasGroup : Option String
  renderOrderBiasRange : Option (Int × Int)
  attr : List (String × AttrDecl)
  styleSetIndex : Option Nat
deriving DecidableEq, Repr

/-- A convenient all-absent style record to build concrete examples from. -/
def emptyStyleData : StyleData :=
  ⟨none, none, none, none, none, none, none, none, none, [], none⟩

mutual
/-- A style rule: its fields and its optional list of nested styles.
`styles = none` models an absent `styles` property (a leaf rule);
`styles = some children` models a present (possibly empty) array. -/
inductive Style : Type where
  | node (data : StyleData) (styles : Option StyleList)

/-- A list of style rules (nested or top level). -/
inductive StyleList : Type where
  | nil
  | cons (head : Style) (tail : StyleList)
end

/-- Field accessor for the data part of a style. -/
def Style.data : Style → StyleData
  | .node d _ => d

/-- Field accessor for the nested styles of a style. -/
def Style.styles : Style → Option StyleList
  | .node _ cs => cs

mutual
/-- Boolean equality on styles. -/
def Style.beq : Style → Style → Bool
  | .node d none, .node d' none => d == d'
  | .node d (some l), .node d' (some l') => d == d' && StyleList.beq l l'
  | _, _ => false

/-- Boolean equality on style lists. -/
def StyleList.beq : StyleList → StyleList → Bool
  | .nil, .nil => true
  | .cons h t, .cons h' t' => Style.beq h h' && StyleList.beq t t'
  | _, _ => false
end

mutual
/-- Style boolean equality agrees with propositional equality. -/
theorem styleBeq_iff : ∀ a b : Style, Style.beq a b = true ↔ a = b
  | .node d none, .node d' none => by simp [Style.beq]
  | .node d (some l), .node d' (some l') => by
    simp [Style.beq, styleListBeq_iff l l']
  | .node d none, .node d' (some l') => by simp [Style.beq]
  | .node d (some l), .node d' none => by simp [Style.beq]

/-- Style-list boolean equality agrees with propositional equality. -/
theorem styleListBeq_iff : ∀ a b : StyleList, StyleList.beq a b = true ↔ a = b
  | .nil, .nil => by simp [StyleList.beq]
  | .cons h t, .cons h' t' => by
    simp [StyleList.beq, styleBeq_iff h h', styleListBeq_iff t t']
  | .nil, .cons _ _ => by simp [StyleList.beq]
  | .cons _ _, .nil => by simp [StyleList.beq]
end

instance : DecidableEq Style := fun a b => decidable_of_iff _ (styleBeq_iff a b)

instance : DecidableEq StyleList := fun a b =>
  decidable_of_iff _ (styleListBeq_iff a b)

/-- Append on style lists. -/
def StyleList.append : StyleList → StyleList → StyleList
  | .nil, l => l
  | .cons h t, l => .cons h (StyleList.append t l)

mutual
/-- Pre-order flattening of a style tree: the node itself followed by its
descendants. -/
def flattenStyle : Style → List Style
  | .node d none => [.node d none]
  | .node d (some l) => .node d (some l) :: flattenStyleList l

/-- Pre-order flattening of a style list. -/
def flattenStyleList : StyleList → List Style
  | .nil => []
  | .cons h t => flattenStyle h ++ flattenStyleList t
end

/-- State threaded through `computeDefaultRenderOrder` inside the
constructor: the shared render-order counter, the style-set index counter,
the `m_renderOrderBiasGroups` table, and warning output. -/
structure ROState where
  techniqueRenderOrder : Int
  styleSetIndex : Nat
  biasGroups : List (String × Int)
  logs : List String
deriving DecidableEq, Repr

/-- The warning emitted when an explicit `renderOrder` is about to be
clobbered by a `renderOrderBiasGroup`. -/
def renderOrderOverriddenWarning : String :=
  "WARN: style.renderOrder will be overridden if renderOrderBiasGroup is set:"

/-- The render-order-bias step of `computeDefaultRenderOrder` (the
`style.renderOrderBiasGroup !== undefined` block): may assign the style's
`renderOrder`, advance the shared counter and record the group order. -/
def applyRenderOrderBias (d : StyleData) (st : ROState) : StyleData × ROState :=
  match d.renderOrderBiasGroup with
  | none => (d, st)
  | some g =>
    -- `style.renderOrderBiasGroup ? map.get(group) : undefined`: the empty
    -- string is falsy, so an empty group name never consults the table.
    let renderOrderBiasGroupOrder : Option Int :=
      if g ≠ "" then lookupAssoc st.biasGroups g else none
    match d.renderOrderBiasRange, renderOrderBiasGroupOrder with
    | some (minRange, maxRange), none =>
      let st :=
        if d.renderOrder ≠ none then
          { st with logs := st.logs ++ [renderOrderOverriddenWarning] }
        else st
      let assigned : Int :=
        if minRange < 0 then st.techniqueRenderOrder + |minRange|
        else st.techniqueRenderOrder
      let st :=
        { st with
          techniqueRenderOrder := st.techniqueRenderOrder + |minRange| + maxRange }
      -- `if (style.renderOrderBiasGroup)`: only a non-empty group is recorded.
      let st :=
        if g ≠ "" then { st with biasGroups := setAssoc st.biasGroups g assigned }
        else st
      let st := { st with techniqueRenderOrder := st.techniqueRenderOrder + 1 }
      ({ d with renderOrder := some assigned }, st)
    | _, some v =>
      -- `else if (renderOrderBiasGroupOrder)`: a recorded order of zero is
      -- falsy and is not reused.
      if v ≠ 0 then
        let st :=
          if d.renderOrder ≠ none then
            { st with logs := st.logs ++ [renderOrderOverriddenWarning] }
          else st
        ({ d with renderOrder := some v }, st)
      else (d, st)
    | none, none => (d, st)

mutual
/-- The recursive body of the constructor (`computeDefaultRenderOrder`):
applies the bias step, then recurses into nested styles, or, for a leaf,
assigns `_styleSetIndex` and auto-assigns `renderOrder` from the shared
counter when a technique is present and no order was set. -/
def computeDefaultRenderOrder : Style → ROState → Style × ROState
  | .node d cs, st =>
    let (d, st) := applyRenderOrderBias d st
    match cs with
    | some l =>
      let (l', st') := computeDefaultRenderOrderList l st
      (.node d (some l'), st')
    | none =>
      let d := { d with styleSetIndex := some st.styleSetIndex }
      let st := { st with styleSetIndex := st.styleSetIndex + 1 }
      match d.technique, d.renderOrder with
      | some _, none =>
        (.node { d with renderOrder := some st.techniqueRenderOrder } none,
         { st with techniqueRenderOrder := st.techniqueRenderOrder + 1 })
      | _, _ => (.node d none, st)

/-- The constructor loop over a list of styles. -/
def computeDefaultRenderOrderList : StyleList → ROState → StyleList × ROState
  | .nil, st => (.nil, st)
  | .cons h t, st =>
    let (h', st') := computeDefaultRenderOrder h st
    let (t', st'') := computeDefaultRenderOrderList t st'
    (.cons h' t', st'')
end

/-- A constructed evaluator: the processed style set, the recorded
render-order bias groups, and construction-time warnings. Unresolved style
references (dropped by `cloneStyle`) are assumed to have been filtered out
of the input. -/
structure StyleSetEvaluator where
  styleSet : StyleList
  renderOrderBiasGroups : List (String × Int)
  constructionLogs : List String
deriving DecidableEq

/-- The `StyleSetEvaluator` constructor: clones the declaration tree (the
clone is the identity here since references are not modelled) and runs
`computeDefaultRenderOrder` over every top-level style with shared state. -/
def mkStyleSetEvaluator (styleSet : StyleList) : StyleSetEvaluator :=
  let (processed, st) := computeDefaultRenderOrderList styleSet ⟨0, 0, [], []⟩
  ⟨processed, st.biasGroups, st.logs⟩

/-- The four attribute buckets produced by `checkStyleDynamicAttributes`:
static values, feature-scoped dynamic attributes, technique-scoped dynamic
attributes (pure expressions), and attributes forwarded for later
resolution. -/
structure StyleAttrBuckets where
  staticAttributes : List (String × Value)
  dynamicFeatureAttributes : List (String × DynVal)
  dynamicTechniqueAttributes : List (String × Expr)
  dynamicForwardedAttributes : List (String × DynVal)
deriving DecidableEq, Repr

/-- The empty bucket collection. -/
def emptyBuckets : StyleAttrBuckets := ⟨[], [], [], []⟩

/-- Classification of one declared attribute (`processAttribute`): an
expression goes to the feature or technique bucket according to its scope
and is otherwise dropped; an interpolated definition goes to the feature or
forwarded bucket; a plain value is static. -/
def processAttribute (descriptor : TechniqueDescriptor) (b : StyleAttrBuckets)
    (attrName : String) (attrValue : Option AttrDecl) : StyleAttrBuckets :=
  match attrValue with
  | none => b
  | some decl =>
    let attrType := techniqueAttrType attrName descriptor
    match decl with
    | .json e =>
      match attrType with
      | .Feature =>
        { b with dynamicFeatureAttributes :=
            b.dynamicFeatureAttributes ++ [(attrName, .expr e)] }
      | .Technique =>
        { b with dynamicTechniqueAttributes :=
            b.dynamicTechniqueAttributes ++ [(attrName, e)] }
      | _ => b
    | .interpolation d =>
      match createInterpolatedProperty d with
      | none => b
      | some p =>
        match attrType with
        | .Feature =>
          { b with dynamicFeatureAttributes :=
              b.dynamicFeatureAttributes ++ [(attrName, .interp p)] }
        | .DynamicMaterial =>
          { b with dynamicForwardedAttributes :=
              b.dynamicForwardedAttributes ++ [(attrName, .interp p)] }
        | .Technique =>
          { b with dynamicForwardedAttributes :=
              b.dynamicForwardedAttributes ++ [(attrName, .interp p)] }
        | _ => b
    | .value v =>
      { b with staticAttributes := b.staticAttributes ++ [(attrName, v)] }

/-- The declarations one style contributes, in processing order
(`processAttributes`): the special selector-level attributes first, then
the `attr` table in declaration order. -/
def styleDecls (d : StyleData) : List (String × Option AttrDecl) :=
  [("renderOrder", d.renderOrder.map fun n => .value (.num n)),
   ("renderOrderOffset", d.renderOrderOffset.map fun n => .value (.num n)),
   ("label", d.labelProperty.map .value),
   ("secondaryRenderOrder", d.secondaryRenderOrder.map .value)] ++
  d.attr.map (fun kv => (kv.1, some kv.2))

/-- Classification of all declarations of one style (`processAttributes`). -/
def processStyleAttributes (descriptor : TechniqueDescriptor)
    (b : StyleAttrBuckets) (d : StyleData) : StyleAttrBuckets :=
  (styleDecls d).foldl (fun b kv => processAttribute descriptor b kv.1 kv.2) b

/-- The descriptor a rule's technique selects
(`techniqueDescriptors[style.technique!] || emptyTechniqueDescriptor`). -/
def styleDescriptor (style : StyleData) : TechniqueDescriptor :=
  (techniqueDescriptors (style.technique.getD "")).getD emptyTechniqueDescriptor

/-- The attribute partition of a matched leaf rule
(`checkStyleDynamicAttributes`): ancestor declarations are collected first,
outermost ancestor to innermost, then the rule itself. The source memoises
the result per rule; it is recomputed on demand here, which is equivalent
because the rule and its stack are fixed by the tree position. -/
def checkStyleDynamicAttributes (style : StyleData)
    (styleStack : List StyleData) : StyleAttrBuckets :=
  let descriptor := styleDescriptor style
  let b := styleStack.foldl (fun b p => processStyleAttributes descriptor b p)
    emptyBuckets
  processStyleAttributes descriptor b style

/-- Serialisation of an evaluated value for the technique cache key
(`JSON.stringify`; string escaping is irrelevant for the claims and
omitted). -/
def jsonStringify : Value → String
  | .str s => "\"" ++ s ++ "\""
  | .num n => toString n
  | .boolV b => if b then "true" else "false"
  | .null => "null"
  | .undef => "undefined"

/-- The dynamic part of the technique cache key: evaluated attribute values,
`"U"` for `undefined`, joined with the NUL character. -/
def dynamicAttrKey (dynamicAttributes : List (String × Value)) : String :=
  String.intercalate "\x00"
    (dynamicAttributes.map fun av =>
      match av.2 with
      | .undef => "U"
      | v => jsonStringify v)

/-- Composite cache key (`makeCacheKey`): style-set index and serialised
dynamic values joined with a colon. -/
def makeCacheKey (styleSetIndex : Nat) (dynKey : String) : String :=
  toString styleSetIndex ++ ":" ++ dynKey

/-- A produced technique instance (`IndexedTechnique`): the technique name,
the assembled attribute table, the global creation index `_index` and the
originating rule index `_styleSetIndex`. -/
structure IndexedTechnique where
  name : String
  attrs : List (String × TechValue)
  index : Nat
  styleSetIndex : Nat
deriving DecidableEq, Repr

/-- JavaScript object-property assignment on the attribute table of a
technique: overwrites the value in place if the key exists, otherwise
appends. -/
def setAttr (attrs : List (String × TechValue)) (k : String) (v : TechValue) :
    List (String × TechValue) :=
  match attrs with
  | [] => [(k, v)]
  | (k', v') :: rest => if k' = k then (k, v) :: rest else (k', v') :: setAttr rest k v

/-- Lookup in the attribute table of a technique. -/
def getAttrValue (attrs : List (String × TechValue)) (k : String) :
    Option TechValue :=
  lookupAssoc attrs k

/-- Conversion of a dynamic attribute entry to a stored technique value. -/
def DynVal.toTechValue : DynVal → TechValue
  | .expr e => .expr e
  | .interp p => .interp p

/-- Evaluator state shared across `getMatchingTechniques` calls: the
append-only `m_techniques` list and the per-rule technique caches
(`_dynamicTechniques`, keyed by the composite cache key, and
`_staticTechnique`, keyed by the rule's `_styleSetIndex`). -/
structure EvalState where
  techniques : List IndexedTechnique
  dynamicTechniqueCache : List (String × IndexedTechnique)
  staticTechniqueCache : List (Nat × IndexedTechnique)
deriving DecidableEq, Repr

/-- The initial evaluator state. -/
def initialEvalState : EvalState := ⟨[], [], []⟩

/-- Technique creation (`createTechnique`): assigns static attributes, then
the evaluated technique-scoped values, then feature-scoped dynamic
attributes, then forwarded attributes (skipping unresolved expressions);
stamps `_index` with the current length of the technique list and appends
the new technique to it. -/
def createTechnique (style : StyleData) (b : StyleAttrBuckets)
    (dynamicAttrs : List (String × Value)) (st : EvalState) :
    IndexedTechnique × EvalState :=
  let attrs := b.staticAttributes.foldl
    (fun a kv => setAttr a kv.1 (.value kv.2)) []
  let attrs := dynamicAttrs.foldl (fun a kv => setAttr a kv.1 (.value kv.2)) attrs
  let attrs := b.dynamicFeatureAttributes.foldl
    (fun a kv => setAttr a kv.1 kv.2.toTechValue) attrs
  let attrs := b.dynamicForwardedAttributes.foldl
    (fun a kv =>
      match kv.2 with
      | .expr _ => a
      | .interp p => setAttr a kv.1 (.interp p)) attrs
  let t : IndexedTechnique :=
    { name := style.technique.getD "", attrs := attrs,
      index := st.techniques.length,
      styleSetIndex := style.styleSetIndex.getD 0 }
  (t, { st with techniques := st.techniques ++ [t] })

/-- Evaluation of a list of named attribute expressions in declaration
order; the first evaluation error aborts and is propagated, as a thrown
exception does in the source's `map` callback. -/
def evalAttrExprs : List (String × Expr) → MapEnv →
    Except StyleError (List (String × Value))
  | [], _ => .ok []
  | (k, ex) :: rest, env => do
    let v ← ex.evaluate env
    let vs ← evalAttrExprs rest env
    .ok ((k, v) :: vs)

/-- Evaluation of the technique-scoped dynamic attributes of a rule against
an environment (`evaluateTechniqueProperties`); the first evaluation error
is propagated. -/
def evaluateTechniqueProperties (b : StyleAttrBuckets) (env : MapEnv) :
    Except StyleError (List (String × Value)) :=
  evalAttrExprs b.dynamicTechniqueAttributes env

/-- The log entry emitted when a `when` expression fails to compile or
evaluate. -/
def whenErrorLog (e : StyleError) : String :=
  match e with
  | .parseError m => "failed to evaluate expression: " ++ m
  | .evalError m => "failed to evaluate expression: " ++ m

/-- Per-pass data of one `getMatchingTechniques` call: the shared evaluator
state, the result list being accumulated, and log output. -/
structure Pass where
  state : EvalState
  result : List IndexedTechnique
  logs : List String
deriving DecidableEq, Repr

/-- Whether a style's `when` condition passes in an environment: absent
conditions pass; a condition passes when it compiles, evaluates, and yields
a truthy value. Compilation and evaluation errors count as not passing. -/
def whenPasses (d : StyleData) (env : MapEnv) : Bool :=
  match d.when with
  | none => true
  | some w =>
    match Expr.fromJSON w >>= fun e => e.evaluate env with
    | .ok v => truthy v
    | .error _ => false

mutual
/-- One step of the matching walk (`processStyle`): the `when` gate (a falsy
result skips the rule; a compile or evaluation error is logged and skips the
rule), then recursion into nested styles or leaf technique resolution. The
returned flag reports whether this rule or a matched descendant carried
`final: true`; an error return models a thrown exception. -/
def processStyle (env : MapEnv) (styleStack : List StyleData) (s : Style)
    (p : Pass) : Pass × Except StyleError Bool :=
  match s with
  | .node d cs =>
    match d.when with
    | some w =>
      match Expr.fromJSON w >>= fun e => e.evaluate env with
      | .error err =>
        ({ p with logs := p.logs ++ [whenErrorLog err] }, .ok false)
      | .ok v =>
        if truthy v then processStyleBody env styleStack d cs p
        else (p, .ok false)
    | none => processStyleBody env styleStack d cs p

/-- The body of `processStyle` after the `when` gate: recursion into nested
styles (pushing the current rule on the stack), or, for a leaf with a
technique other than `"none"`, resolution of a technique instance through
the dynamic or static cache. -/
def processStyleBody (env : MapEnv) (styleStack : List StyleData)
    (d : StyleData) (cs : Option StyleList) (p : Pass) :
    Pass × Except StyleError Bool :=
  match cs with
  | some l => processStyleList env (styleStack ++ [d]) l p
  | none =>
    match d.technique with
    | none => (p, .ok false)
    | some tname =>
      if tname = "none" then (p, .ok (d.final == some true))
      else
        let b := checkStyleDynamicAttributes d styleStack
        if b.dynamicTechniqueAttributes.isEmpty then
          match lookupAssoc p.state.staticTechniqueCache (d.styleSetIndex.getD 0) with
          | some t => ({ p with result := p.result ++ [t] }, .ok (d.final == some true))
          | none =>
            let (t, st') := createTechnique d b [] p.state
            ({ p with
                state :=
                  { st' with
                    staticTechniqueCache :=
                      st'.staticTechniqueCache ++ [(d.styleSetIndex.getD 0, t)] },
                result := p.result ++ [t] },
             .ok (d.final == some true))
        else
          match evaluateTechniqueProperties b env with
          | .error e => (p, .error e)
          | .ok dynamicAttributes =>
            let key := makeCacheKey (d.styleSetIndex.getD 0)
              (dynamicAttrKey dynamicAttributes)
            match lookupAssoc p.state.dynamicTechniqueCache key with
            | some t =>
              ({ p with result := p.result ++ [t] }, .ok (d.final == some true))
            | none =>
              let (t, st') := createTechnique d b dynamicAttributes p.state
              ({ p with
                  state :=
                    { st' with
                      dynamicTechniqueCache :=
                        st'.dynamicTechniqueCache ++ [(key, t)] },
                  result := p.result ++ [t] },
               .ok (d.final == some true))

/-- The walk over a list of sibling rules: stops at the first rule that
signals `final` (or throws), otherwise continues with the threaded state. -/
def processStyleList (env : MapEnv) (styleStack : List StyleData)
    (l : StyleList) (p : Pass) : Pass × Except StyleError Bool :=
  match l with
  | .nil => (p, .ok false)
  | .cons h t =>
    match processStyle env styleStack h p with
    | (p', .ok true) => (p', .ok true)
    | (p', .ok false) => processStyleList env styleStack t p'
    | (p', .error e) => (p', .error e)
end

/-- The public matching entry point (`getMatchingTechniques`): walks the
top-level styles with an empty stack and a fresh result list, stopping when
a rule signals `final`; returns the final shared state, the log output, and
either the matched techniques or the propagated error. The source's
reentrancy assertion (`style stack cleanup failed`) cannot fire here: the
stack is passed by value and is always empty at the top level. -/
def getMatchingTechniques (ev : StyleSetEvaluator) (env : MapEnv)
    (st : EvalState) :
    EvalState × List String × Except StyleError (List IndexedTechnique) :=
  let (p, r) := processStyleList env [] ev.styleSet ⟨st, [], []⟩
  (p.state, p.logs,
   match r with
   | .ok _ => .ok p.result
   | .error e => .error e)

/-- Transferable representation of a technique (`makeDecodedTechnique`):
copies every own attribute whose value is not an `Expr` instance and omits
the rest. -/
def makeDecodedTechnique (t : IndexedTechnique) : IndexedTechnique :=
  { t with attrs := t.attrs.filter (fun kv => !kv.2.isExpr) }

/-- The `decodedTechniques` getter: the transferable image of the technique
list created so far. -/
def decodedTechniques (st : EvalState) : List IndexedTechnique :=
  st.techniques.map makeDecodedTechnique

instance {ε α : Type} [DecidableEq ε] [DecidableEq α] : DecidableEq (Except ε α) :=
  fun a b =>
  match a, b with
  | .ok x, .ok y => decidable_of_iff (x = y) (by simp)
  | .error x, .error y => decidable_of_iff (x = y) (by simp)
  | .ok _, .error _ => isFalse (by simp)
  | .error _, .ok _ => isFalse (by simp)

/-- Lookup distributes over append: the left list is consulted first. -/
theorem lookupAssoc_append {α β : Type} [DecidableEq α] (l m : List (α × β))
    (k : α) :
    lookupAssoc (l ++ m) k =
      match lookupAssoc l k with
      | some v => some v
      | none => lookupAssoc m k := by
  induction l with
  | nil => simp [lookupAssoc]
  | cons hd tl ih =>
    obtain ⟨k', v'⟩ := hd
    by_cases h : k' = k <;> simp [lookupAssoc, h, ih]

/-- A present binding survives appending new bindings on the right. -/
theorem lookupAssoc_append_of_some {α β : Type} [DecidableEq α]
    (l m : List (α × β)) (k : α) (v : β) (h : lookupAssoc l k = some v) :
    lookupAssoc (l ++ m) k = some v := by
  rw [lookupAssoc_append, h]

/-- An absent key resolves through the appended bindings. -/
theorem lookupAssoc_append_of_none {α β : Type} [DecidableEq α]
    (l m : List (α × β)) (k : α) (h : lookupAssoc l k = none) :
    lookupAssoc (l ++ m) k = lookupAssoc m k := by
  rw [lookupAssoc_append, h]

/-- Lookup after setting the same key. -/
theorem lookupAssoc_setAssoc_self {α β : Type} [DecidableEq α]
    (l : List (α × β)) (k : α) (v : β) :
    lookupAssoc (setAssoc l k v) k = some v := by
  induction l with
  | nil => simp [setAssoc, lookupAssoc]
  | cons hd tl ih =>
    obtain ⟨k', v'⟩ := hd
    by_cases h : k' = k <;> simp [setAssoc, lookupAssoc, h, ih]

/-- Lookup after setting a different key. -/
theorem lookupAssoc_setAssoc_ne {α β : Type} [DecidableEq α]
    (l : List (α × β)) (k k' : α) (v : β) (h : k ≠ k') :
    lookupAssoc (setAssoc l k v) k' = lookupAssoc l k' := by
  induction l with
  | nil => simp [setAssoc, lookupAssoc, h]
  | cons hd tl ih =>
    obtain ⟨k₀, v₀⟩ := hd
    by_cases h₀ : k₀ = k
    · subst h₀
      simp [setAssoc, lookupAssoc, h]
    · simp [setAssoc, lookupAssoc, h₀, ih]

/-- Setting an absent key preserves every present binding. -/
theorem lookupAssoc_setAssoc_preserve {α β : Type} [DecidableEq α]
    (l : List (α × β)) (g k : α) (v w : β) (hg : lookupAssoc l g = none)
    (h : lookupAssoc l k = some w) :
    lookupAssoc (setAssoc l g v) k = some w := by
  by_cases hgk : g = k
  · subst hgk
    rw [hg] at h
    exact absurd h (by simp)
  · rw [lookupAssoc_setAssoc_ne l g k v hgk]
    exact h

/-- CLAIM C9: for every `IndexedTechnique`, `makeDecodedTechnique` returns a
technique containing exactly the own attributes of the input whose values
are not `Expr` instances, each with its unchanged value; every attribute
whose value is an `Expr` instance is omitted, and the remaining technique
fields are carried over unchanged. -/
theorem makeDecodedTechnique_drops_exactly_exprs (t : IndexedTechnique)
    (k : String) (v : TechValue) :
    ((k, v) ∈ (makeDecodedTechnique t).attrs ↔
      (k, v) ∈ t.attrs ∧ v.isExpr = false) ∧
    (makeDecodedTechnique t).name = t.name ∧
    (makeDecodedTechnique t).index = t.index ∧
    (makeDecodedTechnique t).styleSetIndex = t.styleSetIndex := by
  refine ⟨?_, rfl, rfl, rfl⟩
  simp [makeDecodedTechnique, List.mem_filter]

/-- The bias step leaves the selector fields of the rule unchanged; only
`renderOrder` may be updated. -/
theorem applyRenderOrderBias_preserves (d : StyleData) (st : ROState) :
    (applyRenderOrderBias d st).1.renderOrderBiasGroup = d.renderOrderBiasGroup ∧
    (applyRenderOrderBias d st).1.renderOrderBiasRange = d.renderOrderBiasRange ∧
    (applyRenderOrderBias d st).1.technique = d.technique ∧
    (applyRenderOrderBias d st).1.styleSetIndex = d.styleSetIndex := by
  unfold applyRenderOrderBias
  cases hg : d.renderOrderBiasGroup with
  | none => simp [hg]
  | some g =>
    by_cases hne : g = "" <;> cases hr : d.renderOrderBiasRange <;>
      simp [hne, hg, hr] <;> split <;> (try split_ifs) <;> simp_all

/-- The bias step preserves every recorded group order: a group is only
recorded when it is not yet present in the table. -/
theorem applyRenderOrderBias_biasMono (d : StyleData) (st : ROState)
    (g : String) (w : Int) (h : lookupAssoc st.biasGroups g = some w) :
    lookupAssoc (applyRenderOrderBias d st).2.biasGroups g = some w := by
  unfold applyRenderOrderBias
  cases hg : d.renderOrderBiasGroup with
  | none => simpa using h
  | some g' =>
    by_cases hne : g' = ""
    · cases hr : d.renderOrderBiasRange with
      | none => simpa [hne] using h
      | some rng =>
        obtain ⟨mn, mx⟩ := rng
        simp only [hne]
        simp only [ne_eq, not_true_eq_false, if_false, ite_false]
        split <;> simpa using h
    · cases hl : lookupAssoc st.biasGroups g' with
      | none =>
        cases hr : d.renderOrderBiasRange with
        | none => simpa [hne, hl] using h
        | some rng =>
          obtain ⟨mn, mx⟩ := rng
          simp only [hne, ne_eq, not_false_iff, if_true, hl, hr]
          split <;>
            simpa using lookupAssoc_setAssoc_preserve st.biasGroups g' g _ w hl h
      | some u =>
        cases hr : d.renderOrderBiasRange with
        | none =>
          simp only [hne, ne_eq, not_false_iff, if_true, hl, hr]
          split <;> (try split_ifs) <;> simp_all
        | some rng =>
          obtain ⟨mn, mx⟩ := rng
          simp only [hne, ne_eq, not_false_iff, if_true, hl, hr]
          split <;> (try split_ifs) <;> simp_all

/-- A rule carrying a non-empty bias group and a bias range always leaves
the bias step with its group recorded, and, whenever the recorded order is
nonzero, with its own `renderOrder` equal to that order. -/
theorem applyRenderOrderBias_assigns (d : StyleData) (st : ROState)
    (g : String) (hg : d.renderOrderBiasGroup = some g) (hne : g ≠ "")
    (hr : d.renderOrderBiasRange ≠ none) :
    ∃ w, lookupAssoc (applyRenderOrderBias d st).2.biasGroups g = some w ∧
      (w ≠ 0 → (applyRenderOrderBias d st).1.renderOrder = some w) := by
  unfold applyRenderOrderBias
  rw [hg]
  cases hl : lookupAssoc st.biasGroups g with
  | none =>
    cases hrng : d.renderOrderBiasRange with
    | none => exact absurd hrng hr
    | some rng =>
      obtain ⟨mn, mx⟩ := rng
      simp only [hne, ne_eq, not_false_iff, if_true, hl, hrng]
      split_ifs <;>
        exact ⟨_, lookupAssoc_setAssoc_self _ _ _, fun _ => rfl⟩
  | some u =>
    cases hrng : d.renderOrderBiasRange with
    | none => exact absurd hrng hr
    | some rng =>
      obtain ⟨mn, mx⟩ := rng
      simp only [hne, ne_eq, not_false_iff, if_true, hl, hrng]
      refine ⟨u, ?_⟩
      split_ifs <;> simp_all

mutual
/-- Construction never forgets a recorded bias-group order (single style). -/
theorem computeDefaultRenderOrder_biasMono :
    ∀ (s : Style) (st : ROState) (g : String) (w : Int),
      lookupAssoc st.biasGroups g = some w →
      lookupAssoc (computeDefaultRenderOrder s st).2.biasGroups g = some w
  | .node d cs, st, g, w => by
    intro h
    have h1 := applyRenderOrderBias_biasMono d st g w h
    rcases hAB : applyRenderOrderBias d st with ⟨d1, st1⟩
    rw [hAB] at h1
    cases cs with
    | none =>
      simp only [computeDefaultRenderOrder, hAB]
      split <;> simpa using h1
    | some l =>
      have h2 := computeDefaultRenderOrderList_biasMono l st1 g w h1
      rcases hL : computeDefaultRenderOrderList l st1 with ⟨l2, st2⟩
      rw [hL] at h2
      simp only [computeDefaultRenderOrder, hAB, hL]
      simpa using h2

/-- Construction never forgets a recorded bias-group order (style list). -/
theorem computeDefaultRenderOrderList_biasMono :
    ∀ (l : StyleList) (st : ROState) (g : String) (w : Int),
      lookupAssoc st.biasGroups g = some w →
      lookupAssoc (computeDefaultRenderOrderList l st).2.biasGroups g = some w
  | .nil, st, g, w => by
    intro h
    simpa [computeDefaultRenderOrderList] using h
  | .cons hd tl, st, g, w => by
    intro h
    have h1 := computeDefaultRenderOrder_biasMono hd st g w h
    rcases hH : computeDefaultRenderOrder hd st with ⟨hd2, st1⟩
    rw [hH] at h1
    have h2 := computeDefaultRenderOrderList_biasMono tl st1 g w h1
    rcases hT : computeDefaultRenderOrderList tl st1 with ⟨tl2, st2⟩
    rw [hT] at h2
    simp only [computeDefaultRenderOrderList, hH, hT]
    simpa using h2
end

mutual
/-- Core invariant for bias groups (single style): after construction, every
rule of the processed tree that carries a non-empty bias group and a bias
range has its group recorded, and a nonzero recorded order is exactly the
rule's resolved `renderOrder`. -/
theorem computeDefaultRenderOrder_biasInv :
    ∀ (s : Style) (st : ROState) (r : Style) (g : String),
      r ∈ flattenStyle (computeDefaultRenderOrder s st).1 →
      r.data.renderOrderBiasGroup = some g → g ≠ "" →
      r.data.renderOrderBiasRange ≠ none →
      ∃ w, lookupAssoc (computeDefaultRenderOrder s st).2.biasGroups g = some w ∧
        (w ≠ 0 → r.data.renderOrder = some w)
  | .node d cs, st, r, g => by
    intro hmem hgrp hne hrng
    rcases hAB : applyRenderOrderBias d st with ⟨d1, st1⟩
    have hpres := applyRenderOrderBias_preserves d st
    rw [hAB] at hpres
    cases cs with
    | none =>
      simp only [computeDefaultRenderOrder, hAB] at hmem ⊢
      cases ht : d1.technique with
      | none =>
        simp only [ht] at hmem ⊢
        simp only [flattenStyle, List.mem_singleton] at hmem
        subst hmem
        simp only [Style.data] at hgrp hne hrng ⊢
        have hdg : d.renderOrderBiasGroup = some g := by
          rw [← hpres.1]
          simpa using hgrp
        have hdr : d.renderOrderBiasRange ≠ none := by
          rw [← hpres.2.1]
          simpa using hrng
        obtain ⟨w, hw, him⟩ := applyRenderOrderBias_assigns d st g hdg hne hdr
        rw [hAB] at hw him
        exact ⟨w, by simpa using hw, fun h0 => by simpa using him h0⟩
      | some tn =>
        cases hro : d1.renderOrder with
        | none =>
          simp only [ht, hro] at hmem ⊢
          simp only [flattenStyle, List.mem_singleton] at hmem
          subst hmem
          simp only [Style.data] at hgrp hne hrng ⊢
          have hdg : d.renderOrderBiasGroup = some g := by
            rw [← hpres.1]
            simpa using hgrp
          have hdr : d.renderOrderBiasRange ≠ none := by
            rw [← hpres.2.1]
            simpa using hrng
          obtain ⟨w, hw, him⟩ := applyRenderOrderBias_assigns d st g hdg hne hdr
          rw [hAB] at hw him
          refine ⟨w, by simpa using hw, fun h0 => ?_⟩
          exact absurd (him h0) (by simp [hro])
        | some v =>
          simp only [ht, hro] at hmem ⊢
          simp only [flattenStyle, List.mem_singleton] at hmem
          subst hmem
          simp only [Style.data] at hgrp hne hrng ⊢
          have hdg : d.renderOrderBiasGroup = some g := by
            rw [← hpres.1]
            simpa using hgrp
          have hdr : d.renderOrderBiasRange ≠ none := by
            rw [← hpres.2.1]
            simpa using hrng
          obtain ⟨w, hw, him⟩ := applyRenderOrderBias_assigns d st g hdg hne hdr
          rw [hAB] at hw him
          refine ⟨w, by simpa using hw, fun h0 => ?_⟩
          have := him h0
          simp only at this
          simp [hro] at this ⊢
          exact this
    | some l =>
      rcases hL : computeDefaultRenderOrderList l st1 with ⟨l2, st2⟩
      simp only [computeDefaultRenderOrder, hAB, hL] at hmem ⊢
      simp only [flattenStyle, List.mem_cons] at hmem
      rcases hmem with hmem | hmem
      · subst hmem
        simp only [Style.data] at hgrp hne hrng ⊢
        have hdg : d.renderOrderBiasGroup = some g := by
          rw [← hpres.1]
          simpa using hgrp
        have hdr : d.renderOrderBiasRange ≠ none := by
          rw [← hpres.2.1]
          simpa using hrng
        obtain ⟨w, hw, him⟩ := applyRenderOrderBias_assigns d st g hdg hne hdr
        rw [hAB] at hw him
        have hw2 := computeDefaultRenderOrderList_biasMono l st1 g w (by simpa using hw)
        rw [hL] at hw2
        exact ⟨w, hw2, fun h0 => by simpa using him h0⟩
      · have := computeDefaultRenderOrderList_biasInv l st1 r g
          (by rw [hL]; exact hmem) hgrp hne hrng
        rw [hL] at this
        exact this

/-- Core invariant for bias groups (style list). -/
theorem computeDefaultRenderOrderList_biasInv :
    ∀ (l : StyleList) (st : ROState) (r : Style) (g : String),
      r ∈ flattenStyleList (computeDefaultRenderOrderList l st).1 →
      r.data.renderOrderBiasGroup = some g → g ≠ "" →
      r.data.renderOrderBiasRange ≠ none →
      ∃ w, lookupAssoc (computeDefaultRenderOrderList l st).2.biasGroups g = some w ∧
        (w ≠ 0 → r.data.renderOrder = some w)
  | .nil, st, r, g => by
    intro hmem
    simp [computeDefaultRenderOrderList, flattenStyleList] at hmem
  | .cons hd tl, st, r, g => by
    intro hmem hgrp hne hrng
    rcases hH : computeDefaultRenderOrder hd st with ⟨hd2, st1⟩
    rcases hT : computeDefaultRenderOrderList tl st1 with ⟨tl2, st2⟩
    simp only [computeDefaultRenderOrderList, hH, hT] at hmem ⊢
    simp only [flattenStyleList, List.mem_append] at hmem
    rcases hmem with hmem | hmem
    · have := computeDefaultRenderOrder_biasInv hd st r g
        (by rw [hH]; exact hmem) hgrp hne hrng
      rw [hH] at this
      obtain ⟨w, hw, him⟩ := this
      have hw2 := computeDefaultRenderOrderList_biasMono tl st1 g w hw
      rw [hT] at hw2
      exact ⟨w, hw2, him⟩
    · have := computeDefaultRenderOrderList_biasInv tl st1 r g
        (by rw [hT]; exact hmem) hgrp hne hrng
      rw [hT] at this
      exact this
end

/-- The bias step is the identity for rules without a bias group. -/
theorem applyRenderOrderBias_group_none (d : StyleData) (st : ROState)
    (h : d.renderOrderBiasGroup = none) : applyRenderOrderBias d st = (d, st) := by
  simp [applyRenderOrderBias, h]

/-- Well-behaved bias declaration: a rule carrying both a bias group and a
bias range must not move the shared render-order counter backwards; the
reserved block advances it by the absolute minimum plus the maximum plus
one. -/
def biasOkData (d : StyleData) : Bool :=
  match d.renderOrderBiasGroup, d.renderOrderBiasRange with
  | some _, some (mn, mx) => decide (0 ≤ |mn| + mx + 1)
  | _, _ => true

/-- Every rule of the tree satisfies the bias-range condition. -/
def biasRangesOK (ss : StyleList) : Bool :=
  (flattenStyleList ss).all fun r => biasOkData r.data

/-- Under the bias-range condition, the bias step never decreases the shared
render-order counter, and it never touches the style-set index. -/
theorem applyRenderOrderBias_counter (d : StyleData) (st : ROState)
    (hok : biasOkData d = true) :
    st.techniqueRenderOrder ≤ (applyRenderOrderBias d st).2.techniqueRenderOrder ∧
    (applyRenderOrderBias d st).2.styleSetIndex = st.styleSetIndex := by
  unfold applyRenderOrderBias
  cases hg : d.renderOrderBiasGroup with
  | none => simp
  | some g =>
    cases hr : d.renderOrderBiasRange with
    | none =>
      by_cases hne : g = ""
      · simp [hne, hr]
      · cases hl : lookupAssoc st.biasGroups g with
        | none => simp [hne, hr, hl]
        | some u =>
          simp only [hne, hr, hl, ne_eq, not_false_iff, if_true, ite_true]
          split <;> (try split_ifs) <;> simp
    | some rng =>
      obtain ⟨mn, mx⟩ := rng
      have hineq : (0 : Int) ≤ |mn| + mx + 1 := by
        have := hok
        simp [biasOkData, hg, hr] at this
        exact this
      by_cases hne : g = ""
      · simp only [hne, hr, ne_eq, not_true_eq_false, if_false, ite_false]
        split_ifs <;> (constructor <;> (try simp) <;> linarith)
      · cases hl : lookupAssoc st.biasGroups g with
        | none =>
          simp only [hne, hr, hl, ne_eq, not_false_iff, if_true, ite_true]
          split_ifs <;> (constructor <;> (try simp) <;> linarith)
        | some u =>
          simp only [hne, hr, hl, ne_eq, not_false_iff, if_true, ite_true]
          split <;> (try split_ifs) <;> simp

mutual
/-- The resolved render orders of the auto-assigned leaves: for each leaf of
the original tree that has a technique, no explicit `renderOrder` and no
`renderOrderBiasGroup`, the `renderOrder` resolved at the corresponding
position of the processed tree, in pre-order. -/
def autoOrders : Style → Style → List (Option Int)
  | .node d none, .node d2 _ =>
    if d.technique ≠ none ∧ d.renderOrder = none ∧ d.renderOrderBiasGroup = none then
      [d2.renderOrder]
    else []
  | .node _ (some l), .node _ (some l2) => autoOrdersList l l2
  | .node _ (some _), .node _ none => []

/-- List version of `autoOrders`, pairing original and processed styles
positionally. -/
def autoOrdersList : StyleList → StyleList → List (Option Int)
  | .nil, _ => []
  | .cons h t, .cons h2 t2 => autoOrders h h2 ++ autoOrdersList t t2
  | .cons _ _, .nil => []
end

mutual
/-- Core invariant for auto-assigned render orders (single style): under the
bias-range condition the shared counter never decreases, and the orders
handed to auto-assigned leaves are strictly increasing and bracketed by the
counter values before and after processing. -/
theorem computeDefaultRenderOrder_autoInv :
    ∀ (s : Style) (st : ROState),
      ((flattenStyle s).all fun r => biasOkData r.data) = true →
      st.techniqueRenderOrder ≤
        (computeDefaultRenderOrder s st).2.techniqueRenderOrder ∧
      ∃ ns : List Int,
        autoOrders s (computeDefaultRenderOrder s st).1 = ns.map some ∧
        List.Chain' (· < ·) ns ∧
        ∀ x ∈ ns, st.techniqueRenderOrder ≤ x ∧
          x < (computeDefaultRenderOrder s st).2.techniqueRenderOrder
  | .node d none, st => by
    intro hok
    have hokd : biasOkData d = true := by
      simpa [flattenStyle, Style.data] using hok
    cases hg : d.renderOrderBiasGroup with
    | none =>
      have hAB := applyRenderOrderBias_group_none d st hg
      cases ht : d.technique with
      | none =>
        simp only [computeDefaultRenderOrder, hAB, ht]
        refine ⟨by simp, [], ?_, by simp, by simp⟩
        cases hro : d.renderOrder <;> simp [autoOrders, ht, hro]
      | some tn =>
        cases hro : d.renderOrder with
        | none =>
          simp only [computeDefaultRenderOrder, hAB, ht, hro]
          refine ⟨by simp, [st.techniqueRenderOrder], ?_, by simp, ?_⟩
          · simp [autoOrders, ht, hro, hg]
          · intro x hx
            simp only [List.mem_singleton] at hx
            subst hx
            constructor
            · exact le_refl _
            · simp
        | some v =>
          simp only [computeDefaultRenderOrder, hAB, ht, hro]
          refine ⟨by simp, [], ?_, by simp, by simp⟩
          simp [autoOrders, ht, hro]
    | some g =>
      have hcnt := applyRenderOrderBias_counter d st hokd
      rcases hAB : applyRenderOrderBias d st with ⟨d1, st1⟩
      rw [hAB] at hcnt
      simp only [computeDefaultRenderOrder, hAB]
      cases ht : d1.technique with
      | none =>
        refine ⟨by simpa using hcnt.1, [], ?_, by simp, by simp⟩
        simp [autoOrders, hg]
      | some tn =>
        cases hro : d1.renderOrder with
        | none =>
          simp only [ht, hro]
          refine ⟨?_, [], ?_, by simp, by simp⟩
          · have := hcnt.1
            simp only at this ⊢
            omega
          · simp [autoOrders, hg]
        | some v =>
          simp only [ht, hro]
          refine ⟨by simpa using hcnt.1, [], ?_, by simp, by simp⟩
          simp [autoOrders, hg]
  | .node d (some l), st => by
    intro hok
    have hokd : biasOkData d = true := by
      have := hok
      simp only [flattenStyle, List.all_cons, Bool.and_eq_true] at this
      exact this.1
    have hokl : ((flattenStyleList l).all fun r => biasOkData r.data) = true := by
      have := hok
      simp only [flattenStyle, List.all_cons, Bool.and_eq_true] at this
      exact this.2
    have hcnt := applyRenderOrderBias_counter d st hokd
    rcases hAB : applyRenderOrderBias d st with ⟨d1, st1⟩
    rw [hAB] at hcnt
    have IH := computeDefaultRenderOrderList_autoInv l st1 hokl
    rcases hL : computeDefaultRenderOrderList l st1 with ⟨l2, st2⟩
    rw [hL] at IH
    obtain ⟨hmono, ns, hmap, hchain, hbounds⟩ := IH
    simp only [computeDefaultRenderOrder, hAB, hL]
    refine ⟨?_, ns, ?_, hchain, ?_⟩
    · have h1 := hcnt.1
      simp only at h1 hmono ⊢
      omega
    · simpa [autoOrders] using hmap
    · intro x hx
      have hb := hbounds x hx
      have h1 := hcnt.1
      simp only at h1 hb ⊢
      omega

/-- Core invariant for auto-assigned render orders (style list). -/
theorem computeDefaultRenderOrderList_autoInv :
    ∀ (l : StyleList) (st : ROState),
      ((flattenStyleList l).all fun r => biasOkData r.data) = true →
      st.techniqueRenderOrder ≤
        (computeDefaultRenderOrderList l st).2.techniqueRenderOrder ∧
      ∃ ns : List Int,
        autoOrdersList l (computeDefaultRenderOrderList l st).1 = ns.map some ∧
        List.Chain' (· < ·) ns ∧
        ∀ x ∈ ns, st.techniqueRenderOrder ≤ x ∧
          x < (computeDefaultRenderOrderList l st).2.techniqueRenderOrder
  | .nil, st => by
    intro _
    exact ⟨le_refl _, [], by simp [computeDefaultRenderOrderList, autoOrdersList],
      by simp, by simp⟩
  | .cons h t, st => by
    intro hok
    have hokh : ((flattenStyle h).all fun r => biasOkData r.data) = true := by
      have := hok
      simp only [flattenStyleList, List.all_append, Bool.and_eq_true] at this
      exact this.1
    have hokt : ((flattenStyleList t).all fun r => biasOkData r.data) = true := by
      have := hok
      simp only [flattenStyleList, List.all_append, Bool.and_eq_true] at this
      exact this.2
    have IH1 := computeDefaultRenderOrder_autoInv h st hokh
    rcases hH : computeDefaultRenderOrder h st with ⟨h2, st1⟩
    rw [hH] at IH1
    obtain ⟨hm1, ns1, hmap1, hchain1, hb1⟩ := IH1
    have IH2 := computeDefaultRenderOrderList_autoInv t st1 hokt
    rcases hT : computeDefaultRenderOrderList t st1 with ⟨t2, st2⟩
    rw [hT] at IH2
    obtain ⟨hm2, ns2, hmap2, hchain2, hb2⟩ := IH2
    simp only [computeDefaultRenderOrderList, hH, hT]
    refine ⟨?_, ns1 ++ ns2, ?_, ?_, ?_⟩
    · simp only at hm1 hm2 ⊢
      omega
    · simp only [autoOrdersList, List.map_append]
      rw [hmap1, hmap2]
    · rw [List.chain'_append]
      refine ⟨hchain1, hchain2, ?_⟩
      intro x hx y hy
      have hx1 := hb1 x (List.mem_of_getLast?_eq_some hx)
      have hy1 := hb2 y (List.mem_of_mem_head? hy)
      simp only at hx1 hy1
      omega
    · intro x hx
      rcases List.mem_append.mp hx with hx | hx
      · have := hb1 x hx
        simp only at this hm2 ⊢
        omega
      · have := hb2 x hx
        simp only at this hm1 ⊢
        omega
end

/-- Executable strict-increase check on a list of integers. -/
def chainLt : List Int → Bool
  | [] => true
  | [_] => true
  | a :: b :: rest => a < b && chainLt (b :: rest)

/-- The executable check agrees with `List.Chain'`. -/
theorem chainLt_iff_chain' (l : List Int) :
    chainLt l = true ↔ List.Chain' (· < ·) l := by
  match l with
  | [] => simp [chainLt]
  | [a] => simp [chainLt]
  | a :: b :: rest =>
    have ih := chainLt_iff_chain' (b :: rest)
    simp only [chainLt, Bool.and_eq_true, decide_eq_true_eq, ih,
      List.chain'_cons]

/-- The property claimed by the spec for render-order bias groups, as a
statement about one style set: any two rules of the processed tree sharing
the same non-empty bias group resolve to equal render orders. -/
def biasGroupOrdersAgree (ss : StyleList) : Prop :=
  ∀ r1 ∈ flattenStyleList (mkStyleSetEvaluator ss).styleSet,
    ∀ r2 ∈ flattenStyleList (mkStyleSetEvaluator ss).styleSet,
      r1.data.renderOrderBiasGroup ≠ none →
      r1.data.renderOrderBiasGroup ≠ some "" →
      r1.data.renderOrderBiasGroup = r2.data.renderOrderBiasGroup →
      r1.data.renderOrder = r2.data.renderOrder

instance (ss : StyleList) : Decidable (biasGroupOrdersAgree ss) := by
  unfold biasGroupOrdersAgree
  infer_instance

/-- A leaf rule with a technique and a non-empty bias group but no bias
range. -/
def c1exampleRuleA : Style :=
  .node
    { emptyStyleData with
      technique := some "line"
      renderOrderBiasGroup := some "g" } none

/-- Two rules sharing group `"g"`, neither carrying a bias range. -/
def c1exampleA : StyleList := .cons c1exampleRuleA (.cons c1exampleRuleA .nil)

/-- A leaf rule with a technique, group `"g"` and bias range `[0, 5]`: the
order recorded for the group is the initial counter value `0`. -/
def c1exampleRuleB : Style :=
  .node
    { emptyStyleData with
      technique := some "line"
      renderOrderBiasGroup := some "g"
      renderOrderBiasRange := some (0, 5) } none

/-- Two rules sharing group `"g"`, both with bias range `[0, 5]`. -/
def c1exampleB : StyleList := .cons c1exampleRuleB (.cons c1exampleRuleB .nil)

/-- CLAIM C1, counterexample: the rules of `c1exampleA` share the non-empty
bias group `"g"` yet resolve to render orders `0` and `1` (no range is
present, so no group order is ever recorded and each leaf draws from the
shared counter); the rules of `c1exampleB` share group `"g"` and both carry
a bias range, yet resolve to orders `0` and `6`, because the recorded group
order `0` is falsy in JavaScript and is never reused. So equal non-empty
bias groups do not imply equal resolved render orders. -/
theorem biasGroup_equal_orders_counterexample :
    ¬ biasGroupOrdersAgree c1exampleA ∧ ¬ biasGroupOrdersAgree c1exampleB := by
  constructor <;> decide

/-- CLAIM C1 (amended): for every style set and every pair of rules of the
processed tree sharing the same non-empty `renderOrderBiasGroup`, each
carrying a `renderOrderBiasRange`, if the order recorded for the group is
nonzero then both rules resolve to that recorded order; in particular their
resolved `renderOrder` values are equal. -/
theorem biasGroup_orders_equal
    (ss : StyleList) (r1 r2 : Style) (g : String) (v : Int)
    (h1 : r1 ∈ flattenStyleList (mkStyleSetEvaluator ss).styleSet)
    (h2 : r2 ∈ flattenStyleList (mkStyleSetEvaluator ss).styleSet)
    (hg1 : r1.data.renderOrderBiasGroup = some g)
    (hg2 : r2.data.renderOrderBiasGroup = some g)
    (hne : g ≠ "")
    (hr1 : r1.data.renderOrderBiasRange ≠ none)
    (hr2 : r2.data.renderOrderBiasRange ≠ none)
    (hv : lookupAssoc (mkStyleSetEvaluator ss).renderOrderBiasGroups g = some v)
    (hv0 : v ≠ 0) :
    r1.data.renderOrder = r2.data.renderOrder ∧
    r1.data.renderOrder = some v := by
  rcases hC : computeDefaultRenderOrderList ss ⟨0, 0, [], []⟩ with ⟨ss2, stf⟩
  have hev : mkStyleSetEvaluator ss = ⟨ss2, stf.biasGroups, stf.logs⟩ := by
    simp [mkStyleSetEvaluator, hC]
  rw [hev] at h1 h2 hv
  simp only at h1 h2 hv
  have ha := computeDefaultRenderOrderList_biasInv ss ⟨0, 0, [], []⟩ r1 g
    (by rw [hC]; exact h1) hg1 hne hr1
  have hb := computeDefaultRenderOrderList_biasInv ss ⟨0, 0, [], []⟩ r2 g
    (by rw [hC]; exact h2) hg2 hne hr2
  rw [hC] at ha hb
  obtain ⟨w1, hw1, hi1⟩ := ha
  obtain ⟨w2, hw2, hi2⟩ := hb
  simp only at hw1 hw2
  rw [hv] at hw1 hw2
  have e1 : w1 = v := by
    injection hw1 with h
    exact h.symm
  have e2 : w2 = v := by
    injection hw2 with h
    exact h.symm
  subst e1
  subst e2
  rw [hi1 hv0, hi2 hv0]
  exact ⟨rfl, rfl⟩

/-- A leaf rule with a technique, group `"g"` and bias range `[-2, 3]`: the
recorded group order is `2`, which is nonzero. -/
def c1witnessRule : Style :=
  .node
    { emptyStyleData with
      technique := some "line"
      renderOrderBiasGroup := some "g"
      renderOrderBiasRange := some (-2, 3) } none

/-- Two rules sharing group `"g"` with range `[-2, 3]`. -/
def c1witnessSet : StyleList := .cons c1witnessRule (.cons c1witnessRule .nil)

/-- The first rule of `c1witnessSet` as resolved by construction. -/
def c1witnessResolved1 : Style :=
  .node
    { emptyStyleData with
      technique := some "line"
      renderOrderBiasGroup := some "g"
      renderOrderBiasRange := some (-2, 3)
      renderOrder := some 2
      styleSetIndex := some 0 } none

/-- The second rule of `c1witnessSet` as resolved by construction. -/
def c1witnessResolved2 : Style :=
  .node
    { emptyStyleData with
      technique := some "line"
      renderOrderBiasGroup := some "g"
      renderOrderBiasRange := some (-2, 3)
      renderOrder := some 2
      styleSetIndex := some 1 } none

/-- Witness for the amended C1 theorem at a concrete style set. -/
theorem biasGroup_orders_equal_witness :
    c1witnessResolved1.data.renderOrder = c1witnessResolved2.data.renderOrder ∧
    c1witnessResolved1.data.renderOrder = some 2 :=
  biasGroup_orders_equal c1witnessSet c1witnessResolved1 c1witnessResolved2
    "g" 2 (by decide) (by decide) (by decide) (by decide) (by decide)
    (by decide) (by decide) (by decide) (by decide)

/-- The property claimed by the spec for auto-assigned render orders, as a
statement about one style set: the orders assigned to leaf rules that have a
technique, no explicit `renderOrder` and no `renderOrderBiasGroup`, read in
pre-order, are all present and strictly increasing. -/
def autoOrdersIncreasing (ss : StyleList) : Prop :=
  (∀ o ∈ autoOrdersList ss (mkStyleSetEvaluator ss).styleSet, o ≠ none) ∧
  chainLt ((autoOrdersList ss (mkStyleSetEvaluator ss).styleSet).filterMap id) =
    true

instance (ss : StyleList) : Decidable (autoOrdersIncreasing ss) := by
  unfold autoOrdersIncreasing
  infer_instance

/-- A plain leaf rule with a technique and nothing else. -/
def c2plainLeaf : Style := .node { emptyStyleData with technique := some "line" } none

/-- A rule whose bias range `[0, -10]` moves the shared counter backwards. -/
def c2negBias : Style :=
  .node
    { emptyStyleData with
      technique := some "line"
      renderOrderBiasGroup := some "h"
      renderOrderBiasRange := some (0, -10) } none

/-- A style set in which a negative bias range sits between two plain
leaves. -/
def c2example : StyleList :=
  .cons c2plainLeaf (.cons c2negBias (.cons c2plainLeaf .nil))

/-- CLAIM C2, counterexample: in `c2example` the two claim-relevant leaves
(no bias group, no explicit order, a technique) resolve to render orders `0`
and `-8`: the intervening rule's bias range `[0, -10]` moves the shared
counter from `1` to `-8`, so the pre-order sequence of auto-assigned orders
is not strictly increasing. -/
theorem autoOrders_increasing_counterexample :
    ¬ autoOrdersIncreasing c2example ∧
    autoOrdersList c2example (mkStyleSetEvaluator c2example).styleSet =
      [some 0, some (-8)] := by
  constructor <;> decide

/-- CLAIM C2 (amended): for every style set in which every rule carrying
both a `renderOrderBiasGroup` and a `renderOrderBiasRange` `[min, max]`
satisfies `|min| + max ≥ -1` (so the reserved block never moves the shared
counter backwards), the render orders auto-assigned to leaf rules with a
technique, no explicit `renderOrder` and no `renderOrderBiasGroup`, taken in
pre-order, are all present and form a strictly increasing sequence of
integers. -/
theorem autoOrders_strictly_increasing (ss : StyleList)
    (hok : biasRangesOK ss = true) : autoOrdersIncreasing ss := by
  have h := computeDefaultRenderOrderList_autoInv ss ⟨0, 0, [], []⟩ hok
  rcases hC : computeDefaultRenderOrderList ss ⟨0, 0, [], []⟩ with ⟨ss2, stf⟩
  rw [hC] at h
  obtain ⟨-, ns, hmap, hchain, -⟩ := h
  have hev : (mkStyleSetEvaluator ss).styleSet = ss2 := by
    simp [mkStyleSetEvaluator, hC]
  constructor
  · intro o ho
    rw [hev] at ho
    simp only at hmap
    rw [hmap] at ho
    simp only [List.mem_map] at ho
    obtain ⟨x, -, hx⟩ := ho
    rw [← hx]
    simp
  · rw [hev]
    simp only at hmap
    rw [hmap]
    have : (ns.map some).filterMap id = ns := by
      simp [List.filterMap_map]
    rw [this, chainLt_iff_chain']
    exact hchain

/-- Witness style set for the amended C2 theorem: a plain leaf, a rule with
the well-behaved bias range `[-2, 3]`, and another plain leaf. -/
def c2witnessSet : StyleList :=
  .cons c2plainLeaf
    (.cons
      (.node
        { emptyStyleData with
          technique := some "line"
          renderOrderBiasGroup := some "h"
          renderOrderBiasRange := some (-2, 3) } none)
      (.cons c2plainLeaf .nil))

/-- Witness for the amended C2 theorem at a concrete style set. -/
theorem autoOrders_strictly_increasing_witness :
    autoOrdersIncreasing c2witnessSet :=
  autoOrders_strictly_increasing c2witnessSet (by decide)

mutual
/-- Accumulator normalisation for `processStyle`: running with arbitrary
result and log accumulators equals running with empty ones and prepending
the accumulators; the state transition and the returned flag do not depend
on the accumulators. -/
theorem processStyle_shift :
    ∀ (env : MapEnv) (stack : List StyleData) (s : Style) (st : EvalState)
      (res : List IndexedTechnique) (logs : List String),
      processStyle env stack s ⟨st, res, logs⟩ =
        (⟨(processStyle env stack s ⟨st, [], []⟩).1.state,
          res ++ (processStyle env stack s ⟨st, [], []⟩).1.result,
          logs ++ (processStyle env stack s ⟨st, [], []⟩).1.logs⟩,
         (processStyle env stack s ⟨st, [], []⟩).2)
  | env, stack, .node d cs, st, res, logs => by
    cases hw : d.when with
    | none =>
      simp only [processStyle, hw]
      exact processStyleBody_shift env stack d cs st res logs
    | some w =>
      cases he : Expr.fromJSON w >>= fun e => e.evaluate env with
      | error err => simp [processStyle, hw, he]
      | ok v =>
        by_cases ht : truthy v
        · simp only [processStyle, hw, he, ht, if_true]
          exact processStyleBody_shift env stack d cs st res logs
        · simp [processStyle, hw, he, ht]

/-- Accumulator normalisation for the body of `processStyle`. -/
theorem processStyleBody_shift :
    ∀ (env : MapEnv) (stack : List StyleData) (d : StyleData)
      (cs : Option StyleList) (st : EvalState)
      (res : List IndexedTechnique) (logs : List String),
      processStyleBody env stack d cs ⟨st, res, logs⟩ =
        (⟨(processStyleBody env stack d cs ⟨st, [], []⟩).1.state,
          res ++ (processStyleBody env stack d cs ⟨st, [], []⟩).1.result,
          logs ++ (processStyleBody env stack d cs ⟨st, [], []⟩).1.logs⟩,
         (processStyleBody env stack d cs ⟨st, [], []⟩).2)
  | env, stack, d, some l, st, res, logs => by
    simp only [processStyleBody]
    exact processStyleList_shift env (stack ++ [d]) l st res logs
  | env, stack, d, none, st, res, logs => by
    cases ht : d.technique with
    | none => simp [processStyleBody, ht]
    | some tname =>
      by_cases hn : tname = "none"
      · simp [processStyleBody, ht, hn]
      · cases hb : (checkStyleDynamicAttributes d stack).dynamicTechniqueAttributes.isEmpty with
        | true =>
          cases hl : lookupAssoc st.staticTechniqueCache (d.styleSetIndex.getD 0) with
          | some t => simp [processStyleBody, ht, hn, hb, hl]
          | none => simp [processStyleBody, ht, hn, hb, hl]
        | false =>
          cases he : evaluateTechniqueProperties (checkStyleDynamicAttributes d stack) env with
          | error e => simp [processStyleBody, ht, hn, hb, he]
          | ok das =>
            cases hl : lookupAssoc st.dynamicTechniqueCache
                (makeCacheKey (d.styleSetIndex.getD 0) (dynamicAttrKey das)) with
            | some t => simp [processStyleBody, ht, hn, hb, he, hl]
            | none => simp [processStyleBody, ht, hn, hb, he, hl]

/-- Accumulator normalisation for the sibling walk. -/
theorem processStyleList_shift :
    ∀ (env : MapEnv) (stack : List StyleData) (l : StyleList) (st : EvalState)
      (res : List IndexedTechnique) (logs : List String),
      processStyleList env stack l ⟨st, res, logs⟩ =
        (⟨(processStyleList env stack l ⟨st, [], []⟩).1.state,
          res ++ (processStyleList env stack l ⟨st, [], []⟩).1.result,
          logs ++ (processStyleList env stack l ⟨st, [], []⟩).1.logs⟩,
         (processStyleList env stack l ⟨st, [], []⟩).2)
  | env, stack, .nil, st, res, logs => by simp [processStyleList]
  | env, stack, .cons h t, st, res, logs => by
    have hh := processStyle_shift env stack h st res logs
    rcases hH : processStyle env stack h ⟨st, [], []⟩ with ⟨⟨st1, dres, dlogs⟩, r⟩
    rw [hH] at hh
    simp only at hh
    cases r with
    | error e =>
      simp only [processStyleList, hh, hH]
    | ok b =>
      cases b with
      | true =>
        simp only [processStyleList, hh, hH]
      | false =>
        simp only [processStyleList, hh, hH]
        have ht1 := processStyleList_shift env stack t st1 (res ++ dres) (logs ++ dlogs)
        have ht2 := processStyleList_shift env stack t st1 dres dlogs
        rcases hT : processStyleList env stack t ⟨st1, [], []⟩ with ⟨⟨st2, tres, tlogs⟩, r2⟩
        rw [hT] at ht1 ht2
        simp only at ht1 ht2
        rw [ht1, ht2]
        simp
end

/-- Cache extension between evaluator states: every cached technique stays
cached under the same key, and the technique list grows only by appending. -/
def EvalState.Extends (st st' : EvalState) : Prop :=
  (∀ k t, lookupAssoc st.dynamicTechniqueCache k = some t →
    lookupAssoc st'.dynamicTechniqueCache k = some t) ∧
  (∀ i t, lookupAssoc st.staticTechniqueCache i = some t →
    lookupAssoc st'.staticTechniqueCache i = some t) ∧
  (∃ tail, st'.techniques = st.techniques ++ tail)

/-- Extension is reflexive. -/
theorem evalStateExtends_refl (st : EvalState) : st.Extends st :=
  ⟨fun _ _ h => h, fun _ _ h => h, [], by simp⟩

/-- Extension is transitive. -/
theorem evalStateExtends_trans {a b c : EvalState} (h1 : a.Extends b)
    (h2 : b.Extends c) : a.Extends c := by
  obtain ⟨d1, s1, t1, ht1⟩ := h1
  obtain ⟨d2, s2, t2, ht2⟩ := h2
  exact ⟨fun k t h => d2 k t (d1 k t h), fun i t h => s2 i t (s1 i t h),
    t1 ++ t2, by rw [ht2, ht1, List.append_assoc]⟩

/-- Every technique sits at the list position given by its `_index`. -/
def indicesOk (st : EvalState) : Prop :=
  ∀ i (h : i < st.techniques.length), (st.techniques.get ⟨i, h⟩).index = i

/-- The index invariant survives appending a technique stamped with the
current length. -/
theorem indicesOk_snoc (l : List IndexedTechnique) (t : IndexedTechnique)
    (h : ∀ i (hi : i < l.length), (l.get ⟨i, hi⟩).index = i)
    (ht : t.index = l.length) :
    ∀ i (hi : i < (l ++ [t]).length), ((l ++ [t]).get ⟨i, hi⟩).index = i := by
  intro i hi
  simp only [List.length_append, List.length_singleton] at hi
  rcases lt_or_ge i l.length with h1 | h1
  · rw [List.get_append i h1]
    exact h i h1
  · have : i = l.length := by omega
    subst this
    have : (l ++ [t]).get ⟨l.length, by simp⟩ = t := by
      simp
    rw [this]
    exact ht

/-- What `createTechnique` does to the state: the new technique is stamped
with the current list length, appended to the list, and the caches are not
touched (the caller inserts into them). -/
theorem createTechnique_state (style : StyleData) (b : StyleAttrBuckets)
    (dyn : List (String × Value)) (st : EvalState) :
    (createTechnique style b dyn st).1.index = st.techniques.length ∧
    (createTechnique style b dyn st).2.techniques =
      st.techniques ++ [(createTechnique style b dyn st).1] ∧
    (createTechnique style b dyn st).2.dynamicTechniqueCache =
      st.dynamicTechniqueCache ∧
    (createTechnique style b dyn st).2.staticTechniqueCache =
      st.staticTechniqueCache := by
  simp [createTechnique]

mutual
/-- Each `processStyle` step extends the evaluator state and preserves the
index invariant. -/
theorem processStyle_extends :
    ∀ (env : MapEnv) (stack : List StyleData) (s : Style) (p : Pass),
      p.state.Extends (processStyle env stack s p).1.state ∧
      (indicesOk p.state → indicesOk (processStyle env stack s p).1.state)
  | env, stack, .node d cs, p => by
    cases hw : d.when with
    | none =>
      simp only [processStyle, hw]
      exact processStyleBody_extends env stack d cs p
    | some w =>
      cases he : Expr.fromJSON w >>= fun e => e.evaluate env with
      | error err =>
        simp only [processStyle, hw, he]
        exact ⟨evalStateExtends_refl _, fun h => h⟩
      | ok v =>
        by_cases ht : truthy v
        · simp only [processStyle, hw, he, ht, if_true]
          exact processStyleBody_extends env stack d cs p
        · simp only [processStyle, hw, he, ht, if_false, ite_false]
          exact ⟨evalStateExtends_refl _, fun h => h⟩

/-- Body version of `processStyle_extends`. -/
theorem processStyleBody_extends :
    ∀ (env : MapEnv) (stack : List StyleData) (d : StyleData)
      (cs : Option StyleList) (p : Pass),
      p.state.Extends (processStyleBody env stack d cs p).1.state ∧
      (indicesOk p.state → indicesOk (processStyleBody env stack d cs p).1.state)
  | env, stack, d, some l, p => by
    simp only [processStyleBody]
    exact processStyleList_extends env (stack ++ [d]) l p
  | env, stack, d, none, p => by
    cases ht : d.technique with
    | none =>
      simp only [processStyleBody, ht]
      exact ⟨evalStateExtends_refl _, fun h => h⟩
    | some tname =>
      by_cases hn : tname = "none"
      · simp only [processStyleBody, ht, hn, if_true, ite_true]
        exact ⟨evalStateExtends_refl _, fun h => h⟩
      · cases hb : (checkStyleDynamicAttributes d stack).dynamicTechniqueAttributes.isEmpty with
        | true =>
          cases hl : lookupAssoc p.state.staticTechniqueCache (d.styleSetIndex.getD 0) with
          | some t =>
            simp only [processStyleBody, ht, hn, hb, hl, if_false, ite_false]
            exact ⟨evalStateExtends_refl _, fun h => h⟩
          | none =>
            simp only [processStyleBody, ht, hn, hb, hl, if_false, ite_false]
            have hc := createTechnique_state d (checkStyleDynamicAttributes d stack) [] p.state
            refine ⟨⟨?_, ?_, ?_⟩, ?_⟩
            · intro k t hk
              simp only [hc.2.2.1]
              exact hk
            · intro i t hk
              simp only [hc.2.2.2]
              refine lookupAssoc_append_of_some _ _ _ _ hk
            · exact ⟨[(createTechnique d (checkStyleDynamicAttributes d stack) [] p.state).1],
                hc.2.1⟩
            · intro hidx i hi
              simp only [hc.2.1] at hi ⊢
              exact indicesOk_snoc p.state.techniques _ hidx hc.1 i hi
        | false =>
          cases he : evaluateTechniqueProperties (checkStyleDynamicAttributes d stack) env with
          | error e =>
            simp only [processStyleBody, ht, hn, hb, he, if_false, ite_false]
            exact ⟨evalStateExtends_refl _, fun h => h⟩
          | ok das =>
            cases hl : lookupAssoc p.state.dynamicTechniqueCache
                (makeCacheKey (d.styleSetIndex.getD 0) (dynamicAttrKey das)) with
            | some t =>
              simp only [processStyleBody, ht, hn, hb, he, hl, if_false, ite_false]
              exact ⟨evalStateExtends_refl _, fun h => h⟩
            | none =>
              simp only [processStyleBody, ht, hn, hb, he, hl, if_false, ite_false]
              have hc := createTechnique_state d (checkStyleDynamicAttributes d stack) das p.state
              refine ⟨⟨?_, ?_, ?_⟩, ?_⟩
              · intro k t hk
                simp only [hc.2.2.1]
                refine lookupAssoc_append_of_some _ _ _ _ hk
              · intro i t hk
                simp only [hc.2.2.2]
                exact hk
              · exact ⟨[(createTechnique d (checkStyleDynamicAttributes d stack) das p.state).1],
                  hc.2.1⟩
              · intro hidx i hi
                simp only [hc.2.1] at hi ⊢
                exact indicesOk_snoc p.state.techniques _ hidx hc.1 i hi

/-- Sibling-walk version of `processStyle_extends`. -/
theorem processStyleList_extends :
    ∀ (env : MapEnv) (stack : List StyleData) (l : StyleList) (p : Pass),
      p.state.Extends (processStyleList env stack l p).1.state ∧
      (indicesOk p.state → indicesOk (processStyleList env stack l p).1.state)
  | env, stack, .nil, p => by
    simp only [processStyleList]
    exact ⟨evalStateExtends_refl _, fun h => h⟩
  | env, stack, .cons h t, p => by
    have hh := processStyle_extends env stack h p
    rcases hH : processStyle env stack h p with ⟨p1, r⟩
    rw [hH] at hh
    cases r with
    | error e =>
      simp only [processStyleList, hH]
      exact hh
    | ok b =>
      cases b with
      | true =>
        simp only [processStyleList, hH]
        exact hh
      | false =>
        have ht2 := processStyleList_extends env stack t p1
        simp only [processStyleList, hH]
        exact ⟨evalStateExtends_trans hh.1 ht2.1, fun hi => ht2.2 (hh.2 hi)⟩
end

mutual
/-- Replay: a successfully processed style, re-processed from any state
extending the one it produced, changes nothing and reproduces exactly the
same techniques, logs and flag. This is the cache-hit argument: every
technique the first pass created or reused is found in the caches of the
later state. -/
theorem processStyle_replay :
    ∀ (env : MapEnv) (stack : List StyleData) (s : Style) (st : EvalState)
      (q : Pass) (b : Bool),
      processStyle env stack s ⟨st, [], []⟩ = (q, .ok b) →
      ∀ st₂ : EvalState, q.state.Extends st₂ →
        processStyle env stack s ⟨st₂, [], []⟩ = (⟨st₂, q.result, q.logs⟩, .ok b)
  | env, stack, .node d cs, st, q, b => by
    intro hrun st₂ hext
    cases hw : d.when with
    | none =>
      simp only [processStyle, hw] at hrun ⊢
      exact processStyleBody_replay env stack d cs st q b hrun st₂ hext
    | some w =>
      cases he : Expr.fromJSON w >>= fun e => e.evaluate env with
      | error err =>
        simp only [processStyle, hw, he] at hrun ⊢
        obtain ⟨h1, h2⟩ := Prod.mk.injEq .. ▸ hrun
        cases hrun
        simp
      | ok v =>
        by_cases ht : truthy v
        · simp only [processStyle, hw, he, ht, if_true] at hrun ⊢
          exact processStyleBody_replay env stack d cs st q b hrun st₂ hext
        · simp only [processStyle, hw, he, ht, if_false, ite_false] at hrun ⊢
          cases hrun
          simp

/-- Body version of the replay lemma. -/
theorem processStyleBody_replay :
    ∀ (env : MapEnv) (stack : List StyleData) (d : StyleData)
      (cs : Option StyleList) (st : EvalState) (q : Pass) (b : Bool),
      processStyleBody env stack d cs ⟨st, [], []⟩ = (q, .ok b) →
      ∀ st₂ : EvalState, q.state.Extends st₂ →
        processStyleBody env stack d cs ⟨st₂, [], []⟩ = (⟨st₂, q.result, q.logs⟩, .ok b)
  | env, stack, d, some l, st, q, b => by
    intro hrun st₂ hext
    simp only [processStyleBody] at hrun ⊢
    exact processStyleList_replay env (stack ++ [d]) l st q b hrun st₂ hext
  | env, stack, d, none, st, q, b => by
    intro hrun st₂ hext
    cases ht : d.technique with
    | none =>
      simp only [processStyleBody, ht] at hrun ⊢
      cases hrun
      simp
    | some tname =>
      by_cases hn : tname = "none"
      · simp only [processStyleBody, ht, hn, if_true, ite_true] at hrun ⊢
        cases hrun
        simp
      · cases hb : (checkStyleDynamicAttributes d stack).dynamicTechniqueAttributes.isEmpty with
        | true =>
          simp only [processStyleBody, ht, hn, hb, if_false, ite_false] at hrun ⊢
          cases hl : lookupAssoc st.staticTechniqueCache (d.styleSetIndex.getD 0) with
          | some t =>
            rw [hl] at hrun
            cases hrun
            have hl2 : lookupAssoc st₂.staticTechniqueCache (d.styleSetIndex.getD 0) = some t :=
              hext.2.1 _ _ hl
            rw [hl2]
            simp
          | none =>
            rw [hl] at hrun
            cases hrun
            have hkey : lookupAssoc
                ((createTechnique d (checkStyleDynamicAttributes d stack) [] st).2.staticTechniqueCache ++
                  [(d.styleSetIndex.getD 0,
                    (createTechnique d (checkStyleDynamicAttributes d stack) [] st).1)])
                (d.styleSetIndex.getD 0) =
                some (createTechnique d (checkStyleDynamicAttributes d stack) [] st).1 := by
              have hc := createTechnique_state d (checkStyleDynamicAttributes d stack) [] st
              rw [hc.2.2.2]
              rw [lookupAssoc_append_of_none _ _ _ hl]
              simp [lookupAssoc]
            have hl2 := hext.2.1 _ _ hkey
            rw [hl2]
            simp
        | false =>
          simp only [processStyleBody, ht, hn, hb, Bool.false_eq_true, if_false,
            ite_false] at hrun ⊢
          cases he : evaluateTechniqueProperties (checkStyleDynamicAttributes d stack) env with
          | error e =>
            simp only [he] at hrun
            simp at hrun
          | ok das =>
            simp only [he] at hrun ⊢
            cases hl : lookupAssoc st.dynamicTechniqueCache
                (makeCacheKey (d.styleSetIndex.getD 0) (dynamicAttrKey das)) with
            | some t =>
              simp only [hl] at hrun
              cases hrun
              have hl2 := hext.1 _ _ hl
              simp [hl2]
            | none =>
              simp only [hl] at hrun
              cases hrun
              have hkey : lookupAssoc
                  ((createTechnique d (checkStyleDynamicAttributes d stack) das st).2.dynamicTechniqueCache ++
                    [(makeCacheKey (d.styleSetIndex.getD 0) (dynamicAttrKey das),
                      (createTechnique d (checkStyleDynamicAttributes d stack) das st).1)])
                  (makeCacheKey (d.styleSetIndex.getD 0) (dynamicAttrKey das)) =
                  some (createTechnique d (checkStyleDynamicAttributes d stack) das st).1 := by
                have hc := createTechnique_state d (checkStyleDynamicAttributes d stack) das st
                rw [hc.2.2.1]
                rw [lookupAssoc_append_of_none _ _ _ hl]
                simp [lookupAssoc]
              have hl2 := hext.1 _ _ hkey
              simp [hl2]

/-- Sibling-walk version of the replay lemma. -/
theorem processStyleList_replay :
    ∀ (env : MapEnv) (stack : List StyleData) (l : StyleList) (st : EvalState)
      (q : Pass) (b : Bool),
      processStyleList env stack l ⟨st, [], []⟩ = (q, .ok b) →
      ∀ st₂ : EvalState, q.state.Extends st₂ →
        processStyleList env stack l ⟨st₂, [], []⟩ = (⟨st₂, q.result, q.logs⟩, .ok b)
  | env, stack, .nil, st, q, b => by
    intro hrun st₂ hext
    simp only [processStyleList] at hrun ⊢
    cases hrun
    simp
  | env, stack, .cons h t, st, q, b => by
    intro hrun st₂ hext
    rcases hH : processStyle env stack h ⟨st, [], []⟩ with ⟨⟨st1, dres, dlogs⟩, r⟩
    cases r with
    | error e =>
      simp only [processStyleList, hH] at hrun
      simp at hrun
    | ok bh =>
      cases bh with
      | true =>
        simp only [processStyleList, hH] at hrun
        cases hrun
        have hrep := processStyle_replay env stack h st ⟨st1, dres, dlogs⟩ true hH st₂ hext
        simp only [processStyleList, hrep]
      | false =>
        simp only [processStyleList, hH] at hrun
        have hshift := processStyleList_shift env stack t st1 dres dlogs
        rcases hT : processStyleList env stack t ⟨st1, [], []⟩ with ⟨⟨st2, tres, tlogs⟩, r2⟩
        rw [hT] at hshift
        simp only at hshift
        rw [hshift] at hrun
        cases r2 with
        | error e => simp at hrun
        | ok b2 =>
          cases hrun
          have hmono := (processStyleList_extends env stack t ⟨st1, [], []⟩).1
          rw [hT] at hmono
          simp only at hmono
          have hext1 : st1.Extends st₂ := evalStateExtends_trans hmono hext
          have hrep := processStyle_replay env stack h st ⟨st1, dres, dlogs⟩ false hH st₂ hext1
          have hrept := processStyleList_replay env stack t st1 ⟨st2, tres, tlogs⟩ b hT st₂ hext
          simp only [processStyleList, hrep]
          have hshift2 := processStyleList_shift env stack t st₂ dres dlogs
          rw [hrept] at hshift2
          simp only at hshift2
          rw [hshift2]
end

/-- CLAIM C3: for every evaluator and every pair of structurally equal
environments (environments are plain values here, so structural equality is
equality), calling `getMatchingTechniques` with the first and then with the
second yields technique lists equal in content, with the same `_index` at
every position: the second call resolves every rule through the caches the
first call populated, so it returns the very same technique instances and
leaves the state unchanged. -/
theorem getMatchingTechniques_idempotent
    (ev : StyleSetEvaluator) (env env₂ : MapEnv) (st st₁ : EvalState)
    (logs₁ : List String) (ts : List IndexedTechnique)
    (henv : env₂ = env)
    (h : getMatchingTechniques ev env st = (st₁, logs₁, .ok ts)) :
    getMatchingTechniques ev env₂ st₁ = (st₁, logs₁, .ok ts) := by
  subst henv
  rcases hP : processStyleList env₂ [] ev.styleSet ⟨st, [], []⟩
    with ⟨⟨stA, resA, logsA⟩, r⟩
  simp only [getMatchingTechniques, hP] at h
  cases r with
  | error e =>
    simp only [Prod.mk.injEq] at h
    exact absurd h.2.2 (by simp)
  | ok bb =>
    simp only [Prod.mk.injEq] at h
    obtain ⟨h1, h2, h3⟩ := h
    subst h1
    subst h2
    have h3' : resA = ts := by
      injection h3
    subst h3'
    have hrep := processStyleList_replay env₂ [] ev.styleSet st ⟨stA, resA, logsA⟩
      bb hP stA (evalStateExtends_refl stA)
    simp only [getMatchingTechniques, hrep]

/-- A leaf rule using the `circles` technique with a technique-scoped
dynamic `opacity` and a static `color`. -/
def sampleCirclesRule : Style :=
  .node
    { emptyStyleData with
      technique := some "circles"
      attr := [("opacity", .json (.getAttr "op")), ("color", .value (.str "#f00"))] } none

/-- The evaluator built from the sample circles rule. -/
def sampleCirclesEvaluator : StyleSetEvaluator :=
  mkStyleSetEvaluator (.cons sampleCirclesRule .nil)

/-- The technique the sample rule produces for `op = 3`. -/
def sampleCirclesTech : IndexedTechnique :=
  ⟨"circles",
   [("renderOrder", .value (.num 0)), ("color", .value (.str "#f00")),
    ("opacity", .value (.num 3))], 0, 0⟩

/-- The evaluator state after the first matching call for `op = 3`. -/
def sampleCirclesState : EvalState :=
  ⟨[sampleCirclesTech], [("0:3", sampleCirclesTech)], []⟩

/-- Witness for C3 at a concrete evaluator, environment and state. -/
theorem getMatchingTechniques_idempotent_witness :
    getMatchingTechniques sampleCirclesEvaluator [("op", Value.num 3)]
      sampleCirclesState = (sampleCirclesState, [], .ok [sampleCirclesTech]) :=
  getMatchingTechniques_idempotent sampleCirclesEvaluator
    [("op", Value.num 3)] [("op", Value.num 3)] initialEvalState
    sampleCirclesState [] [sampleCirclesTech] rfl (by decide)

/-- CLAIM C8: every technique created by `createTechnique` is stamped with
`_index` equal to the length of the technique list at creation time and is
appended to that list; and across any `getMatchingTechniques` call the
technique list only grows by appending, while the invariant that position
`i` holds the technique with `_index = i` is preserved. Hence `_index`
values are stable for the evaluator's lifetime, monotonically increasing in
creation order, and never reused. -/
theorem techniques_append_only_index_stable :
    (∀ (style : StyleData) (b : StyleAttrBuckets) (dyn : List (String × Value))
      (st : EvalState),
      (createTechnique style b dyn st).1.index = st.techniques.length ∧
      (createTechnique style b dyn st).2.techniques =
        st.techniques ++ [(createTechnique style b dyn st).1]) ∧
    (∀ (ev : StyleSetEvaluator) (env : MapEnv) (st st' : EvalState)
      (logs : List String) (r : Except StyleError (List IndexedTechnique)),
      getMatchingTechniques ev env st = (st', logs, r) →
      (∃ tail, st'.techniques = st.techniques ++ tail) ∧
      (indicesOk st → indicesOk st')) := by
  constructor
  · intro style b dyn st
    have hc := createTechnique_state style b dyn st
    exact ⟨hc.1, hc.2.1⟩
  · intro ev env st st' logs r h
    have hext := processStyleList_extends env [] ev.styleSet ⟨st, [], []⟩
    rcases hP : processStyleList env [] ev.styleSet ⟨st, [], []⟩
      with ⟨⟨stA, resA, logsA⟩, rr⟩
    rw [hP] at hext
    simp only [getMatchingTechniques, hP] at h
    have hst : st' = stA := by
      cases rr <;> simp only [Prod.mk.injEq] at h <;> exact h.1.symm
    subst hst
    exact ⟨hext.1.2.2, hext.2⟩

/-- Witness for C8 at a concrete evaluator, environment and state. -/
theorem techniques_append_only_index_stable_witness :
    (∃ tail,
      (getMatchingTechniques sampleCirclesEvaluator [("op", Value.num 3)]
        initialEvalState).1.techniques = initialEvalState.techniques ++ tail) ∧
    (indicesOk initialEvalState →
      indicesOk (getMatchingTechniques sampleCirclesEvaluator
        [("op", Value.num 3)] initialEvalState).1) :=
  techniques_append_only_index_stable.2 sampleCirclesEvaluator
    [("op", Value.num 3)] initialEvalState _ _ _ rfl

/-- Splitting the sibling walk over an appended list: the second part runs
exactly when the first part neither signalled `final` nor threw. -/
theorem processStyleList_split :
    ∀ (env : MapEnv) (stack : List StyleData) (l₁ l₂ : StyleList) (p : Pass),
      processStyleList env stack (StyleList.append l₁ l₂) p =
        match processStyleList env stack l₁ p with
        | (p', Except.ok true) => (p', Except.ok true)
        | (p', Except.ok false) => processStyleList env stack l₂ p'
        | (p', Except.error e) => (p', Except.error e)
  | env, stack, .nil, l₂, p => by
    simp [StyleList.append, processStyleList]
  | env, stack, .cons h t, l₂, p => by
    rcases hH : processStyle env stack h p with ⟨p1, r⟩
    cases r with
    | error e => simp [StyleList.append, processStyleList, hH]
    | ok bh =>
      cases bh with
      | true => simp [StyleList.append, processStyleList, hH]
      | false =>
        have ih := processStyleList_split env stack t l₂ p1
        simp only [StyleList.append, processStyleList, hH]
        exact ih

/-- CLAIM C4 (amended): the short circuit happens exactly when a rule's
processing signals final, that is, for a matched leaf rule that has a
technique and carries `final: true`, or for a rule one of whose matched
descendants signals final. Such a rule stops the walk: none of the rules
after it are evaluated, so no technique originating from them reaches the
result. At the top level, `getMatchingTechniques` over the style set with
the trailing rules present equals the run over the style set truncated
right after the final rule; the same holds for the sibling walk at any
nesting level. -/
theorem final_short_circuits
    (env : MapEnv) (st : EvalState) (bg : List (String × Int))
    (cl : List String) (l₁ l₂ : StyleList) (r : Style) (p₁ p₂ : Pass)
    (h₁ : processStyleList env [] l₁ ⟨st, [], []⟩ = (p₁, .ok false))
    (h₂ : processStyle env [] r p₁ = (p₂, .ok true)) :
    (getMatchingTechniques ⟨StyleList.append l₁ (.cons r l₂), bg, cl⟩ env st =
      getMatchingTechniques ⟨StyleList.append l₁ (.cons r .nil), bg, cl⟩ env st) ∧
    ∀ (stack : List StyleData) (l₁' l₂' : StyleList) (r' : Style)
      (p p₁' p₂' : Pass),
      processStyleList env stack l₁' p = (p₁', .ok false) →
      processStyle env stack r' p₁' = (p₂', .ok true) →
      processStyleList env stack (StyleList.append l₁' (.cons r' l₂')) p =
        (p₂', .ok true) := by
  have general : ∀ (stack : List StyleData) (l₁' l₂' : StyleList) (r' : Style)
      (p p₁' p₂' : Pass),
      processStyleList env stack l₁' p = (p₁', .ok false) →
      processStyle env stack r' p₁' = (p₂', .ok true) →
      processStyleList env stack (StyleList.append l₁' (.cons r' l₂')) p =
        (p₂', .ok true) := by
    intro stack l₁' l₂' r' p p₁' p₂' ha hb
    rw [processStyleList_split, ha]
    simp only [processStyleList, hb]
  constructor
  · have hA := general [] l₁ l₂ r ⟨st, [], []⟩ p₁ p₂ h₁ h₂
    have hB := general [] l₁ .nil r ⟨st, [], []⟩ p₁ p₂ h₁ h₂
    simp only [getMatchingTechniques, hA, hB]
  · exact general

/-- A leaf rule marked `final: true`. -/
def c4finalRule : Style :=
  .node
    { emptyStyleData with
      technique := some "line"
      final := some true } none

/-- A plain leaf rule placed after the final rule. -/
def c4plainRule : Style := .node { emptyStyleData with technique := some "line" } none

/-- A matching rule that carries `final: true` and has nested styles; its
own flag is never read by the walk. -/
def c4groupFinal : Style :=
  .node { emptyStyleData with final := some true } (some (.cons c4plainRule .nil))

/-- A final-marked rule with nested styles followed by a further rule. -/
def c4setA : StyleList := .cons c4groupFinal (.cons c4plainRule .nil)

/-- A matching leaf rule that carries `final: true` but has no technique;
the walk returns before its flag is checked. -/
def c4bareFinal : Style := .node { emptyStyleData with final := some true } none

/-- A final-marked technique-less leaf followed by a further rule. -/
def c4setB : StyleList := .cons c4bareFinal (.cons c4plainRule .nil)

/-- CLAIM C4, counterexample: the claim as stated fails for two kinds of
matching rules that carry `final: true` and are not last. In `c4setA` the
first rule matches, carries `final: true` and has nested styles, but the
nested branch of `processStyle` returns only the recursion's flag and never
reads the rule's own flag, so the walk continues and the later rule's
technique (its `_styleSetIndex` is `1`) appears in the result. In `c4setB`
the first rule is a matching final-marked leaf without a technique; it
returns `false` before the final check is reached, so the later rule's
technique appears as well. -/
theorem final_short_circuits_counterexample :
    c4groupFinal.data.final = some true ∧
    (getMatchingTechniques (mkStyleSetEvaluator c4setA) [] initialEvalState).2.2 =
      .ok [⟨"line", [("renderOrder", .value (.num 0))], 0, 0⟩,
        ⟨"line", [("renderOrder", .value (.num 1))], 1, 1⟩] ∧
    c4bareFinal.data.final = some true ∧
    (getMatchingTechniques (mkStyleSetEvaluator c4setB) [] initialEvalState).2.2 =
      .ok [⟨"line", [("renderOrder", .value (.num 0))], 0, 1⟩] := by
  refine ⟨by decide, by decide, by decide, by decide⟩

/-- The technique produced by the final rule from the initial state. -/
def c4tech : IndexedTechnique := ⟨"line", [], 0, 0⟩

/-- The pass state after the final rule has matched. -/
def c4pass : Pass := ⟨⟨[c4tech], [], [(0, c4tech)]⟩, [c4tech], []⟩

/-- Witness for C4 at a concrete style set. -/
theorem final_short_circuits_witness :
    (getMatchingTechniques
        ⟨StyleList.append .nil (.cons c4finalRule (.cons c4plainRule .nil)), [], []⟩
        [] initialEvalState =
      getMatchingTechniques
        ⟨StyleList.append .nil (.cons c4finalRule .nil), [], []⟩
        [] initialEvalState) ∧
    ∀ (stack : List StyleData) (l₁' l₂' : StyleList) (r' : Style)
      (p p₁' p₂' : Pass),
      processStyleList [] stack l₁' p = (p₁', .ok false) →
      processStyle [] stack r' p₁' = (p₂', .ok true) →
      processStyleList [] stack (StyleList.append l₁' (.cons r' l₂')) p =
        (p₂', .ok true) :=
  final_short_circuits [] initialEvalState [] [] .nil (.cons c4plainRule .nil)
    c4finalRule ⟨initialEvalState, [], []⟩ c4pass (by decide) (by decide)

/-- CLAIM C6: a rule whose `when` expression fails to compile or evaluate is
treated as not matching: `processStyle` only appends a log entry, returns
control to the walk (flag `false`), contributes no technique and changes no
state; consequently `getMatchingTechniques` over a style set containing such
a rule produces the same final state and the same result (in particular no
propagated exception) as over the style set without that rule. -/
theorem when_error_skips_rule
    (env : MapEnv) (d : StyleData) (cs : Option StyleList) (w : JsonExpr)
    (err : StyleError)
    (hw : d.when = some w)
    (he : (Expr.fromJSON w >>= fun e => e.evaluate env) = .error err) :
    (∀ (stack : List StyleData) (p : Pass),
      processStyle env stack (.node d cs) p =
        ({ p with logs := p.logs ++ [whenErrorLog err] }, .ok false)) ∧
    ∀ (bg : List (String × Int)) (cl : List String) (st : EvalState)
      (l₁ l₂ : StyleList),
      (getMatchingTechniques ⟨StyleList.append l₁ (.cons (.node d cs) l₂), bg, cl⟩
          env st).1 =
        (getMatchingTechniques ⟨StyleList.append l₁ l₂, bg, cl⟩ env st).1 ∧
      (getMatchingTechniques ⟨StyleList.append l₁ (.cons (.node d cs) l₂), bg, cl⟩
          env st).2.2 =
        (getMatchingTechniques ⟨StyleList.append l₁ l₂, bg, cl⟩ env st).2.2 := by
  have hskip : ∀ (stack : List StyleData) (p : Pass),
      processStyle env stack (.node d cs) p =
        ({ p with logs := p.logs ++ [whenErrorLog err] }, .ok false) := by
    intro stack p
    simp only [processStyle, hw, he]
  refine ⟨hskip, ?_⟩
  intro bg cl st l₁ l₂
  rcases hA : processStyleList env [] l₁ ⟨st, [], []⟩ with ⟨⟨st₁, res₁, logs₁⟩, rA⟩
  cases rA with
  | error e =>
    constructor <;>
      simp only [getMatchingTechniques, processStyleList_split, hA]
  | ok bA =>
    cases bA with
    | true =>
      constructor <;>
        simp only [getMatchingTechniques, processStyleList_split, hA]
    | false =>
      have hcons : processStyleList env [] (.cons (.node d cs) l₂) ⟨st₁, res₁, logs₁⟩ =
          processStyleList env [] l₂ ⟨st₁, res₁, logs₁ ++ [whenErrorLog err]⟩ := by
        simp only [processStyleList, hskip]
      have hs1 := processStyleList_shift env [] l₂ st₁ res₁ (logs₁ ++ [whenErrorLog err])
      have hs2 := processStyleList_shift env [] l₂ st₁ res₁ logs₁
      rcases hB : processStyleList env [] l₂ ⟨st₁, [], []⟩ with ⟨⟨st₂, res₂, logs₂⟩, rB⟩
      rw [hB] at hs1 hs2
      simp only at hs1 hs2
      constructor <;>
        simp only [getMatchingTechniques, processStyleList_split, hA, hcons,
          hs1, hs2]

/-- A rule whose `when` expression names an unknown operator. -/
def c6badWhenRule : Style :=
  .node
    { emptyStyleData with
      when := some (.unknownOp "bogus")
      technique := some "line" } none

/-- Witness for C6 at a concrete rule and style set. -/
theorem when_error_skips_rule_witness :
    (∀ (stack : List StyleData) (p : Pass),
      processStyle [] stack c6badWhenRule p =
        ({ p with
            logs := p.logs ++
              [whenErrorLog (.parseError "unknown operator bogus")] },
         .ok false)) ∧
    ∀ (bg : List (String × Int)) (cl : List String) (st : EvalState)
      (l₁ l₂ : StyleList),
      (getMatchingTechniques
          ⟨StyleList.append l₁ (.cons c6badWhenRule l₂), bg, cl⟩ [] st).1 =
        (getMatchingTechniques ⟨StyleList.append l₁ l₂, bg, cl⟩ [] st).1 ∧
      (getMatchingTechniques
          ⟨StyleList.append l₁ (.cons c6badWhenRule l₂), bg, cl⟩ [] st).2.2 =
        (getMatchingTechniques ⟨StyleList.append l₁ l₂, bg, cl⟩ [] st).2.2 :=
  when_error_skips_rule []
    { emptyStyleData with
      when := some (.unknownOp "bogus")
      technique := some "line" } none (.unknownOp "bogus")
    (.parseError "unknown operator bogus") (by decide) (by decide)

/-- A passing `when` gate reduces `processStyle` to its body. -/
theorem processStyle_of_whenPasses (env : MapEnv) (d : StyleData)
    (cs : Option StyleList) (p : Pass) (hwp : whenPasses d env = true) :
    processStyle env [] (.node d cs) p = processStyleBody env [] d cs p := by
  cases hwd : d.when with
  | none => simp [processStyle, hwd]
  | some w =>
    simp only [whenPasses, hwd] at hwp
    cases he : Expr.fromJSON w >>= fun e => e.evaluate env with
    | error e =>
      rw [he] at hwp
      simp at hwp
    | ok v =>
      rw [he] at hwp
      simp only at hwp
      simp [processStyle, hwd, he, hwp]

/-- The singleton walk returns the body outcome of its only rule. -/
theorem getMatchingTechniques_singleton (s : Style)
    (bg : List (String × Int)) (cl : List String) (env : MapEnv)
    (stq : EvalState) (q : Pass) (bq : Bool)
    (hrun : processStyle env [] s ⟨stq, [], []⟩ = (q, .ok bq)) :
    getMatchingTechniques ⟨.cons s .nil, bg, cl⟩ env stq =
      (q.state, q.logs, .ok q.result) := by
  cases bq with
  | true => simp only [getMatchingTechniques, processStyleList, hrun]
  | false => simp only [getMatchingTechniques, processStyleList, hrun]

/-- CLAIM C5: for every leaf style rule and every two environments on which
the rule's `when` condition passes and all of its technique-scoped dynamic
attribute expressions evaluate to the same values (in particular, for
environments differing only in feature-scoped attributes, which never enter
the cache key), consecutive `getMatchingTechniques` calls resolve both
environments to the same cached `IndexedTechnique` instance, with the same
`_index`, and the second call leaves the state unchanged. -/
theorem featureScope_excluded_from_cache_key
    (d : StyleData) (bg : List (String × Int)) (cl : List String)
    (env₁ env₂ : MapEnv) (st : EvalState) (tname : String)
    (das : List (String × Value))
    (ht : d.technique = some tname) (hn : tname ≠ "none")
    (hw1 : whenPasses d env₁ = true) (hw2 : whenPasses d env₂ = true)
    (he1 : evaluateTechniqueProperties (checkStyleDynamicAttributes d []) env₁ =
      .ok das)
    (he2 : evaluateTechniqueProperties (checkStyleDynamicAttributes d []) env₂ =
      .ok das) :
    ∃ (t : IndexedTechnique) (st₁ : EvalState),
      getMatchingTechniques ⟨.cons (.node d none) .nil, bg, cl⟩ env₁ st =
        (st₁, [], .ok [t]) ∧
      getMatchingTechniques ⟨.cons (.node d none) .nil, bg, cl⟩ env₂ st₁ =
        (st₁, [], .ok [t]) := by
  have hbody : ∃ (t : IndexedTechnique) (st₁ : EvalState),
      processStyleBody env₁ [] d none ⟨st, [], []⟩ =
        (⟨st₁, [t], []⟩, .ok (d.final == some true)) ∧
      processStyleBody env₂ [] d none ⟨st₁, [], []⟩ =
        (⟨st₁, [t], []⟩, .ok (d.final == some true)) := by
    cases hb : (checkStyleDynamicAttributes d []).dynamicTechniqueAttributes.isEmpty with
    | true =>
      cases hsl : lookupAssoc st.staticTechniqueCache (d.styleSetIndex.getD 0) with
      | some t =>
        refine ⟨t, st, ?_, ?_⟩ <;>
          simp [processStyleBody, ht, hn, hb, hsl]
      | none =>
        refine ⟨(createTechnique d (checkStyleDynamicAttributes d []) [] st).1,
          { (createTechnique d (checkStyleDynamicAttributes d []) [] st).2 with
            staticTechniqueCache :=
              (createTechnique d (checkStyleDynamicAttributes d []) [] st).2.staticTechniqueCache ++
                [(d.styleSetIndex.getD 0,
                  (createTechnique d (checkStyleDynamicAttributes d []) [] st).1)] },
          ?_, ?_⟩
        · simp [processStyleBody, ht, hn, hb, hsl]
        · have hc := createTechnique_state d (checkStyleDynamicAttributes d []) [] st
          have hl2 : lookupAssoc
              ((createTechnique d (checkStyleDynamicAttributes d []) [] st).2.staticTechniqueCache ++
                [(d.styleSetIndex.getD 0,
                  (createTechnique d (checkStyleDynamicAttributes d []) [] st).1)])
              (d.styleSetIndex.getD 0) =
              some (createTechnique d (checkStyleDynamicAttributes d []) [] st).1 := by
            rw [hc.2.2.2, lookupAssoc_append_of_none _ _ _ hsl]
            simp [lookupAssoc]
          simp [processStyleBody, ht, hn, hb, hl2]
    | false =>
      cases hsl : lookupAssoc st.dynamicTechniqueCache
          (makeCacheKey (d.styleSetIndex.getD 0) (dynamicAttrKey das)) with
      | some t =>
        refine ⟨t, st, ?_, ?_⟩
        · simp only [processStyleBody, ht, hn, hb, Bool.false_eq_true, if_false,
            ite_false, he1, hsl]
          simp [hn]
        · simp only [processStyleBody, ht, hn, hb, Bool.false_eq_true, if_false,
            ite_false, he2, hsl]
          simp [hn]
      | none =>
        refine ⟨(createTechnique d (checkStyleDynamicAttributes d []) das st).1,
          { (createTechnique d (checkStyleDynamicAttributes d []) das st).2 with
            dynamicTechniqueCache :=
              (createTechnique d (checkStyleDynamicAttributes d []) das st).2.dynamicTechniqueCache ++
                [(makeCacheKey (d.styleSetIndex.getD 0) (dynamicAttrKey das),
                  (createTechnique d (checkStyleDynamicAttributes d []) das st).1)] },
          ?_, ?_⟩
        · simp only [processStyleBody, ht, hn, hb, Bool.false_eq_true, if_false,
            ite_false, he1, hsl]
          simp [hn]
        · have hc := createTechnique_state d (checkStyleDynamicAttributes d []) das st
          have hl2 : lookupAssoc
              ((createTechnique d (checkStyleDynamicAttributes d []) das st).2.dynamicTechniqueCache ++
                [(makeCacheKey (d.styleSetIndex.getD 0) (dynamicAttrKey das),
                  (createTechnique d (checkStyleDynamicAttributes d []) das st).1)])
              (makeCacheKey (d.styleSetIndex.getD 0) (dynamicAttrKey das)) =
              some (createTechnique d (checkStyleDynamicAttributes d []) das st).1 := by
            rw [hc.2.2.1, lookupAssoc_append_of_none _ _ _ hsl]
            simp [lookupAssoc]
          simp only [processStyleBody, ht, hn, hb, Bool.false_eq_true, if_false,
            ite_false, he2, hl2]
          simp [hn]
  obtain ⟨t, st₁, hr1, hr2⟩ := hbody
  refine ⟨t, st₁, ?_, ?_⟩
  · have hgate := processStyle_of_whenPasses env₁ d none ⟨st, [], []⟩ hw1
    rw [hr1] at hgate
    exact getMatchingTechniques_singleton _ bg cl env₁ st _ _ hgate
  · have hgate := processStyle_of_whenPasses env₂ d none ⟨st₁, [], []⟩ hw2
    rw [hr2] at hgate
    exact getMatchingTechniques_singleton _ bg cl env₂ st₁ _ _ hgate

/-- A `line` rule with a feature-scoped `lineWidth` expression and a
technique-scoped `kind` expression. -/
def c5data : StyleData :=
  { emptyStyleData with
    technique := some "line"
    attr := [("lineWidth", .json (.getAttr "lw")), ("kind", .json (.getAttr "k"))] }

/-- Witness for C5: two environments differing only in the feature-scoped
`lw` attribute resolve to the same cached technique instance. -/
theorem featureScope_excluded_from_cache_key_witness :
    ∃ (t : IndexedTechnique) (st₁ : EvalState),
      getMatchingTechniques ⟨.cons (.node c5data none) .nil, [], []⟩
        [("lw", Value.num 1), ("k", Value.str "road")] initialEvalState =
        (st₁, [], .ok [t]) ∧
      getMatchingTechniques ⟨.cons (.node c5data none) .nil, [], []⟩
        [("lw", Value.num 2), ("k", Value.str "road")] st₁ =
        (st₁, [], .ok [t]) :=
  featureScope_excluded_from_cache_key c5data [] []
    [("lw", Value.num 1), ("k", Value.str "road")]
    [("lw", Value.num 2), ("k", Value.str "road")]
    initialEvalState "line" [("kind", Value.str "road")]
    (by decide) (by decide) (by decide) (by decide) (by decide) (by decide)

/-- Mapping evaluation over technique attributes propagates the first
evaluation error; the presence of any failing attribute forces an error. -/
theorem evalAttrExprs_error_of_mem (env : MapEnv) :
    ∀ (l : List (String × Expr)) (k : String) (ex : Expr) (e : StyleError),
      (k, ex) ∈ l → ex.evaluate env = .error e →
      ∃ e', evalAttrExprs l env = .error e'
  | [], k, ex, e => by
    intro hmem
    simp at hmem
  | (k', ex') :: rest, k, ex, e => by
    intro hmem he
    cases hev : ex'.evaluate env with
    | error e0 =>
      refine ⟨e0, ?_⟩
      simp only [evalAttrExprs, hev]
      rfl
    | ok v =>
      rcases List.mem_cons.mp hmem with heq | hmem2
      · cases heq
        rw [hev] at he
        cases he
      · obtain ⟨e', he'⟩ := evalAttrExprs_error_of_mem env rest k ex e hmem2 he
        refine ⟨e', ?_⟩
        simp only [evalAttrExprs, hev, he']
        rfl

/-- CLAIM C7: for every matched leaf rule with technique-scoped dynamic
attributes, if evaluating one of those attribute expressions throws an
evaluation error, the error propagates out of `getMatchingTechniques` to
the caller (unlike `when`-expression errors, which are caught and
logged). -/
theorem techniqueScope_eval_error_propagates
    (d : StyleData) (bg : List (String × Int)) (cl : List String)
    (env : MapEnv) (st : EvalState) (tname attrName : String) (ex : Expr)
    (e : StyleError)
    (ht : d.technique = some tname) (hn : tname ≠ "none")
    (hw : whenPasses d env = true)
    (hmem : (attrName, ex) ∈
      (checkStyleDynamicAttributes d []).dynamicTechniqueAttributes)
    (he : ex.evaluate env = .error e) :
    ∃ e', (getMatchingTechniques ⟨.cons (.node d none) .nil, bg, cl⟩ env st).2.2 =
      .error e' := by
  obtain ⟨e', he'⟩ := evalAttrExprs_error_of_mem env
    (checkStyleDynamicAttributes d []).dynamicTechniqueAttributes
    attrName ex e hmem he
  have hne : (checkStyleDynamicAttributes d []).dynamicTechniqueAttributes.isEmpty = false := by
    cases hl : (checkStyleDynamicAttributes d []).dynamicTechniqueAttributes with
    | nil =>
      rw [hl] at hmem
      simp at hmem
    | cons a as => simp [hl]
  have hbody : processStyleBody env [] d none ⟨st, [], []⟩ =
      (⟨st, [], []⟩, .error e') := by
    simp only [processStyleBody, ht, hn, hne, Bool.false_eq_true, if_false,
      ite_false]
    have hevp : evaluateTechniqueProperties (checkStyleDynamicAttributes d []) env =
        .error e' := he'
    simp only [hevp]
  have hgate := processStyle_of_whenPasses env d none ⟨st, [], []⟩ hw
  rw [hbody] at hgate
  refine ⟨e', ?_⟩
  simp only [getMatchingTechniques, processStyleList, hgate]

/-- A `circles` rule whose technique-scoped `opacity` expression casts a
missing attribute to a number and therefore always fails to evaluate. -/
def c7data : StyleData :=
  { emptyStyleData with
    technique := some "circles"
    attr := [("opacity", .json (.numberCast (.getAttr "missing")))] }

/-- Witness for C7: the evaluation error of the technique-scoped attribute
escapes `getMatchingTechniques`. -/
theorem techniqueScope_eval_error_propagates_witness :
    ∃ e', (getMatchingTechniques ⟨.cons (.node c7data none) .nil, [], []⟩ []
      initialEvalState).2.2 = .error e' :=
  techniqueScope_eval_error_propagates c7data [] [] [] initialEvalState
    "circles" "opacity" (.numberCast (.getAttr "missing"))
    (.evalError "cast to number failed")
    (by decide) (by decide) (by decide) (by decide) (by decide)

/-- The static values one style contributes, in declaration order. -/
def styleStaticAttrs (descriptor : TechniqueDescriptor) (d : StyleData) :
    List (String × Value) :=
  (processStyleAttributes descriptor emptyBuckets d).staticAttributes

/-- One classification step only appends to the static bucket, by whatever
the declaration alone contributes. -/
theorem processAttribute_static (descriptor : TechniqueDescriptor)
    (b : StyleAttrBuckets) (n : String) (v : Option AttrDecl) :
    (processAttribute descriptor b n v).staticAttributes =
      b.staticAttributes ++
        (processAttribute descriptor emptyBuckets n v).staticAttributes := by
  cases v with
  | none => simp [processAttribute, emptyBuckets]
  | some decl =>
    cases decl with
    | value w => simp [processAttribute, emptyBuckets]
    | json e =>
      cases hty : techniqueAttrType n descriptor <;>
        simp [processAttribute, emptyBuckets, hty]
    | interpolation dd =>
      cases hcp : createInterpolatedProperty dd with
      | none => simp [processAttribute, emptyBuckets, hcp]
      | some p =>
        cases hty : techniqueAttrType n descriptor <;>
          simp [processAttribute, emptyBuckets, hcp, hty]

/-- Folding the classification over a declaration list only appends to the
static bucket. -/
theorem foldl_processAttribute_static (descriptor : TechniqueDescriptor) :
    ∀ (l : List (String × Option AttrDecl)) (b : StyleAttrBuckets),
      (l.foldl (fun b kv => processAttribute descriptor b kv.1 kv.2) b).staticAttributes =
        b.staticAttributes ++
          (l.foldl (fun b kv => processAttribute descriptor b kv.1 kv.2)
            emptyBuckets).staticAttributes
  | [], b => by simp [emptyBuckets]
  | kv :: rest, b => by
    simp only [List.foldl_cons]
    rw [foldl_processAttribute_static descriptor rest
        (processAttribute descriptor b kv.1 kv.2),
      foldl_processAttribute_static descriptor rest
        (processAttribute descriptor emptyBuckets kv.1 kv.2),
      processAttribute_static descriptor b kv.1 kv.2]
    simp [List.append_assoc]

/-- One style's classification appends exactly its own static values. -/
theorem processStyleAttributes_static (descriptor : TechniqueDescriptor)
    (b : StyleAttrBuckets) (d : StyleData) :
    (processStyleAttributes descriptor b d).staticAttributes =
      b.staticAttributes ++ styleStaticAttrs descriptor d := by
  unfold processStyleAttributes styleStaticAttrs
  rw [foldl_processAttribute_static]
  rfl

/-- CLAIM C10, collection order: the static bucket of a matched leaf rule is
the concatenation of the static declarations of its ancestors, outermost
first, followed by the leaf's own static declarations. -/
theorem checkStyleDynamicAttributes_static_split (d : StyleData) :
    ∀ (stack : List StyleData),
      (checkStyleDynamicAttributes d stack).staticAttributes =
        ((stack.map (styleStaticAttrs (styleDescriptor d))).flatten ++
          styleStaticAttrs (styleDescriptor d) d) := by
  have hfold : ∀ (stack : List StyleData) (b : StyleAttrBuckets),
      (stack.foldl (fun b p => processStyleAttributes (styleDescriptor d) b p)
        b).staticAttributes =
        b.staticAttributes ++
          (stack.map (styleStaticAttrs (styleDescriptor d))).flatten := by
    intro stack
    induction stack with
    | nil => simp
    | cons a rest ih =>
      intro b
      simp only [List.foldl_cons, List.map_cons, List.flatten_cons]
      rw [ih, processStyleAttributes_static]
      simp [List.append_assoc]
  intro stack
  unfold checkStyleDynamicAttributes
  rw [processStyleAttributes_static, hfold]
  simp [emptyBuckets]

/-- Lookup after a JavaScript-style assignment of the same key. -/
theorem getAttrValue_setAttr_self (a : List (String × TechValue)) (k : String)
    (v : TechValue) : getAttrValue (setAttr a k v) k = some v := by
  induction a with
  | nil => simp [setAttr, getAttrValue, lookupAssoc]
  | cons hd tl ih =>
    obtain ⟨k', v'⟩ := hd
    by_cases h : k' = k <;> simp [setAttr, getAttrValue, lookupAssoc, h] <;>
      simpa [getAttrValue] using ih

/-- Lookup after a JavaScript-style assignment of a different key. -/
theorem getAttrValue_setAttr_ne (a : List (String × TechValue)) (k k' : String)
    (v : TechValue) (h : k ≠ k') :
    getAttrValue (setAttr a k v) k' = getAttrValue a k' := by
  induction a with
  | nil => simp [setAttr, getAttrValue, lookupAssoc, h]
  | cons hd tl ih =>
    obtain ⟨k₀, v₀⟩ := hd
    by_cases h₀ : k₀ = k
    · subst h₀
      simp [setAttr, getAttrValue, lookupAssoc, h]
    · simp only [setAttr, h₀, if_false, ite_false]
      by_cases h₁ : k₀ = k' <;>
        simpa [getAttrValue, lookupAssoc, h₁] using ih

/-- A key absent from an association list is not found. -/
theorem lookupAssoc_eq_none_of_not_mem {α β : Type} [DecidableEq α]
    (l : List (α × β)) (k : α) (h : ∀ kv ∈ l, kv.1 ≠ k) :
    lookupAssoc l k = none := by
  induction l with
  | nil => simp [lookupAssoc]
  | cons hd tl ih =>
    obtain ⟨k', v'⟩ := hd
    have hne : k' ≠ k := h (k', v') (by simp)
    simp only [lookupAssoc, hne, if_false, ite_false]
    exact ih fun kv hm => h kv (by simp [hm])

/-- Last-write-wins for the assignment fold of `createTechnique`: the value
found under a key is the last assigned one, read off the reversed
assignment list, or the prior table entry when the key is never assigned. -/
theorem getAttrValue_foldl_setAttr {β : Type} (f : β → TechValue) :
    ∀ (l : List (String × β)) (init : List (String × TechValue)) (k : String),
      getAttrValue (l.foldl (fun a kv => setAttr a kv.1 (f kv.2)) init) k =
        (match lookupAssoc l.reverse k with
         | some v => some (f v)
         | none => getAttrValue init k)
  | [], init, k => by simp [lookupAssoc]
  | (k', v') :: rest, init, k => by
    simp only [List.foldl_cons, List.reverse_cons]
    rw [getAttrValue_foldl_setAttr f rest (setAttr init k' (f v')) k,
      lookupAssoc_append]
    cases h : lookupAssoc rest.reverse k with
    | some v => rfl
    | none =>
      by_cases hk : k' = k
      · subst hk
        simp [lookupAssoc, getAttrValue_setAttr_self]
      · simp [lookupAssoc, hk, getAttrValue_setAttr_ne _ _ _ _ hk]

/-- The assignment fold leaves keys it never assigns untouched. -/
theorem getAttrValue_foldl_setAttr_not_mem {β : Type} (f : β → TechValue)
    (l : List (String × β)) (init : List (String × TechValue)) (k : String)
    (h : ∀ kv ∈ l, kv.1 ≠ k) :
    getAttrValue (l.foldl (fun a kv => setAttr a kv.1 (f kv.2)) init) k =
      getAttrValue init k := by
  rw [getAttrValue_foldl_setAttr]
  rw [lookupAssoc_eq_none_of_not_mem _ _ (fun kv hm => h kv (List.mem_reverse.mp hm))]

/-- The forwarded-attribute fold leaves keys it never assigns untouched. -/
theorem getAttrValue_foldl_forward_not_mem :
    ∀ (l : List (String × DynVal)) (init : List (String × TechValue)) (k : String),
      (∀ kv ∈ l, kv.1 ≠ k) →
      getAttrValue
        (l.foldl
          (fun a kv =>
            match kv.2 with
            | .expr _ => a
            | .interp p => setAttr a kv.1 (.interp p)) init) k =
        getAttrValue init k
  | [], init, k => by
    intro h
    simp
  | (k', dv) :: rest, init, k => by
    intro h
    have hne : k' ≠ k := h (k', dv) (by simp)
    have hrest : ∀ kv ∈ rest, kv.1 ≠ k := fun kv hm => h kv (by simp [hm])
    cases dv with
    | expr e =>
      simp only [List.foldl_cons]
      exact getAttrValue_foldl_forward_not_mem rest init k hrest
    | interp p =>
      simp only [List.foldl_cons]
      rw [getAttrValue_foldl_forward_not_mem rest (setAttr init k' (.interp p)) k hrest]
      exact getAttrValue_setAttr_ne _ _ _ _ hne

/-- A leaf `circles` rule declaring `opacity` as the static value `5`. -/
def c10leafRule : Style :=
  .node
    { emptyStyleData with
      technique := some "circles"
      attr := [("opacity", .value (.num 5))] } none

/-- An intermediate rule declaring `opacity` as an expression. -/
def c10midRule : Style :=
  .node { emptyStyleData with attr := [("opacity", .json (.literal (.num 7)))] }
    (some (.cons c10leafRule .nil))

/-- An outermost rule declaring `opacity` as the static value `3`. -/
def c10topRule : Style :=
  .node { emptyStyleData with attr := [("opacity", .value (.num 3))] }
    (some (.cons c10midRule .nil))

/-- The technique the nested C10 style set produces. -/
def c10tech : IndexedTechnique :=
  ⟨"circles",
   [("opacity", .value (.num 7)), ("renderOrder", .value (.num 0))], 0, 0⟩

/-- CLAIM C10, counterexample: the leaf rule declares the static value `5`
for `opacity` and its outermost ancestor declares the static value `3`, yet
the produced technique carries `7`: the intermediate ancestor declares
`opacity` as a technique-scoped expression, and evaluated dynamic values are
assigned after all static values, overriding the leaf. So the leaf's static
value does not always win. -/
theorem leaf_static_value_wins_counterexample :
    (getMatchingTechniques (mkStyleSetEvaluator (.cons c10topRule .nil)) []
      initialEvalState).2.2 = .ok [c10tech] ∧
    lookupAssoc c10leafRule.data.attr "opacity" = some (.value (.num 5)) ∧
    lookupAssoc c10topRule.data.attr "opacity" = some (.value (.num 3)) ∧
    getAttrValue c10tech.attrs "opacity" = some (.value (.num 7)) ∧
    getAttrValue c10tech.attrs "opacity" ≠ some (.value (.num 5)) := by
  refine ⟨by decide, by decide, by decide, by decide, by decide⟩

/-- CLAIM C10 (amended): attribute declarations of a matched leaf rule are
collected ancestors first, outermost to innermost, then the leaf itself,
and `createTechnique` assigns them in that order; therefore when the leaf
and one of its ancestors both declare a static value for the same attribute
name, and no rule in the chain also declares that name as an expression or
interpolated value (those are assigned after the static values and would
override them), the produced technique carries the leaf rule's value. -/
theorem leaf_static_value_wins
    (d : StyleData) (stack : List StyleData) (k : String) (vleaf : Value)
    (dyn : List (String × Value)) (st : EvalState)
    (hleaf : lookupAssoc (styleStaticAttrs (styleDescriptor d) d).reverse k =
      some vleaf)
    (hanc : ∃ a ∈ stack,
      lookupAssoc (styleStaticAttrs (styleDescriptor d) a) k ≠ none)
    (hfeat : ∀ kv ∈ (checkStyleDynamicAttributes d stack).dynamicFeatureAttributes,
      kv.1 ≠ k)
    (hfwd : ∀ kv ∈ (checkStyleDynamicAttributes d stack).dynamicForwardedAttributes,
      kv.1 ≠ k)
    (hdyn : ∀ kv ∈ dyn, kv.1 ≠ k) :
    (checkStyleDynamicAttributes d stack).staticAttributes =
      (stack.map (styleStaticAttrs (styleDescriptor d))).flatten ++
        styleStaticAttrs (styleDescriptor d) d ∧
    getAttrValue
      (createTechnique d (checkStyleDynamicAttributes d stack) dyn st).1.attrs
      k = some (.value vleaf) := by
  have hsplit := checkStyleDynamicAttributes_static_split d stack
  refine ⟨hsplit, ?_⟩
  simp only [createTechnique]
  rw [getAttrValue_foldl_forward_not_mem _ _ _ hfwd]
  rw [getAttrValue_foldl_setAttr_not_mem DynVal.toTechValue _ _ _ hfeat]
  rw [getAttrValue_foldl_setAttr_not_mem (TechValue.value) _ _ _ hdyn]
  rw [getAttrValue_foldl_setAttr (TechValue.value)]
  rw [hsplit]
  rw [List.reverse_append, lookupAssoc_append, hleaf]

/-- An ancestor rule declaring the static value `3` for `opacity`. -/
def c10witnessAncestor : StyleData :=
  { emptyStyleData with attr := [("opacity", .value (.num 3))] }

/-- A leaf `circles` rule declaring the static value `5` for `opacity`. -/
def c10witnessLeaf : StyleData :=
  { emptyStyleData with
    technique := some "circles"
    attr := [("opacity", .value (.num 5))] }

/-- Witness for the amended C10 theorem: with only static declarations of
`opacity` in the chain, the produced technique carries the leaf's value. -/
theorem leaf_static_value_wins_witness :
    (checkStyleDynamicAttributes c10witnessLeaf [c10witnessAncestor]).staticAttributes =
      ([c10witnessAncestor].map
        (styleStaticAttrs (styleDescriptor c10witnessLeaf))).flatten ++
        styleStaticAttrs (styleDescriptor c10witnessLeaf) c10witnessLeaf ∧
    getAttrValue
      (createTechnique c10witnessLeaf
        (checkStyleDynamicAttributes c10witnessLeaf [c10witnessAncestor]) []
        initialEvalState).1.attrs "opacity" = some (.value (.num 5)) :=
  leaf_static_value_wins c10witnessLeaf [c10witnessAncestor] "opacity"
    (.num 5) [] initialEvalState (by decide)
    ⟨c10witnessAncestor, by decide, by decide⟩ (by decide) (by decide)
    (by decide)
